import Mathlib

/-!
# Verification of the sentry-relay envelope pipeline

A shallow embedding of the parts of `sentry-relay` that the specification's
claims are about:

* `relay-server/src/utils/rate_limits.rs` — the `X-Sentry-Rate-Limits` header
  parser and formatter, `EnvelopeSummary`, and the `EnvelopeLimiter`;
* `general/src/datascrubbing/convert.rs` — the `DataScrubbingConfig` →
  `PiiConfig` projection;
* `relay-general/src/pii/attachments.rs` — the length-preserving redaction
  primitives of the attachment scrubber;
* `relay-server/src/actors/keys.rs` — the relay-info cache actor.

Rust strings are embedded as `List Char`, byte buffers as `List Nat`
(each element < 256 at the call sites we care about), and `HashMap`s as
association lists.  Types that live in crates outside the provided sources
(`relay-quotas`, `relay-common`, the envelope module of `relay-server`) are
modelled from the specification; each such definition carries a doc comment
starting with `Modelled from the spec:`.
-/

/-- Rust `&str` / `String`, embedded as its character list. -/
abbrev Str := List Char

/-- Modelled from the spec: the `DataCategory` enum of the `relay-quotas`
crate (absent from the provided sources).  Categories named by the spec's
`X-Sentry-Rate-Limits` grammar plus `Default` (used by
`EnvelopeSummary::infer_category`) and the forward-compatibility `Unknown`. -/
inductive DataCategory where
  | default
  | error
  | transaction
  | security
  | attachment
  | session
  | unknown
deriving DecidableEq, Repr

/-- Modelled from the spec: `DataCategory::from_name`; an unrecognised token
maps to `Unknown` (forward compatibility). -/
def DataCategory.from_name (s : Str) : DataCategory :=
  if s = "default".toList then .default
  else if s = "error".toList then .error
  else if s = "transaction".toList then .transaction
  else if s = "security".toList then .security
  else if s = "attachment".toList then .attachment
  else if s = "session".toList then .session
  else .unknown

/-- Modelled from the spec: the `Display` name of a `DataCategory`. -/
def DataCategory.name : DataCategory → Str
  | .default => "default".toList
  | .error => "error".toList
  | .transaction => "transaction".toList
  | .security => "security".toList
  | .attachment => "attachment".toList
  | .session => "session".toList
  | .unknown => "unknown".toList

/-- Modelled from the spec: the quota scope tokens `organization`, `project`,
`key`; anything else is `Unknown`. -/
inductive QuotaScope where
  | organization
  | project
  | key
  | unknown
deriving DecidableEq, Repr

/-- Modelled from the spec: `QuotaScope::from_name`. -/
def QuotaScope.from_name (s : Str) : QuotaScope :=
  if s = "organization".toList then .organization
  else if s = "project".toList then .project
  else if s = "key".toList then .key
  else .unknown

/-- Modelled from the spec: the scoping of an envelope (organization id,
project id, key id, public key), used for quota accounting.  Identities are
embedded as naturals. -/
structure Scoping where
  organization_id : Nat
  project_id : Nat
  key_id : Option Nat
  public_key : Nat
deriving DecidableEq, Repr

/-- Modelled from the spec: a rate-limit scope instantiated against a
concrete `Scoping`. -/
inductive RateLimitScope where
  | organization (id : Nat)
  | project (id : Nat)
  | key (public_key : Nat)
deriving DecidableEq, Repr

/-- Modelled from the spec: `RateLimitScope::for_quota`; an unknown quota
scope falls back to the organization scope. -/
def RateLimitScope.for_quota (scoping : Scoping) : QuotaScope → RateLimitScope
  | .organization => .organization scoping.organization_id
  | .project => .project scoping.project_id
  | .key => .key scoping.public_key
  | .unknown => .organization scoping.organization_id

/-- Modelled from the spec: the header name of a `RateLimitScope`. -/
def RateLimitScope.name : RateLimitScope → Str
  | .organization _ => "organization".toList
  | .project _ => "project".toList
  | .key _ => "key".toList

/-- Modelled from the spec: a rate-limit record.  `retry_after` is the
remaining number of seconds of the limit (the Rust `RetryAfter` deadline,
read relative to a fixed `now`); a limit is *active* while it is nonzero. -/
structure RateLimit where
  categories : List DataCategory
  scope : RateLimitScope
  reason_code : Option Str
  retry_after : Nat
deriving DecidableEq, Repr

/-- Modelled from the spec: a rate limit is active while its retry-after
deadline has not expired. -/
def RateLimit.is_active (l : RateLimit) : Bool :=
  l.retry_after ≠ 0

/-- Modelled from the spec: `RateLimits` is a set-like collection; adding a
limit that shares its categories and scope with an existing entry keeps the
one with the longer retry-after deadline. -/
def RateLimits.add (limits : List RateLimit) (limit : RateLimit) : List RateLimit :=
  match limits with
  | [] => [limit]
  | l :: rest =>
    if l.categories = limit.categories ∧ l.scope = limit.scope then
      if l.retry_after < limit.retry_after then limit :: rest else l :: rest
    else
      l :: RateLimits.add rest limit

/-- Modelled from the spec: merging adds every limit of `other`. -/
def RateLimits.merge (limits other : List RateLimit) : List RateLimit :=
  other.foldl RateLimits.add limits

/-- Modelled from the spec: the first active limit of the collection, if
any. -/
def RateLimits.get_active_limit (limits : List RateLimit) : Option RateLimit :=
  limits.find? RateLimit.is_active

/-- Modelled from the spec: `RateLimits::is_limited`. -/
def RateLimits.is_limited (limits : List RateLimit) : Bool :=
  limits.any RateLimit.is_active

/-- Modelled from the spec: the item types of an envelope (§3). -/
inductive ItemType where
  | event
  | transaction
  | security
  | rawSecurity
  | unrealReport
  | attachment
  | session
  | sessions
  | metrics
  | metricBuckets
  | formData
  | userReport
deriving DecidableEq, Repr

/-- Modelled from the spec: attachment subtypes (§3: "an optional attachment
subtype (e.g. `minidump`, `unreal_context`)"). -/
inductive AttachmentType where
  | minidump
  | appleCrashReport
  | unrealContext
  | unrealLogs
  | plain
deriving DecidableEq, Repr

/-- Modelled from the spec: an envelope item.  It carries a type, an optional
attachment subtype, a payload length, and a mutable `rate_limited` flag
(§3). -/
structure Item where
  ty : ItemType
  attachment_type : Option AttachmentType
  len : Nat
  rate_limited : Bool
deriving DecidableEq, Repr

/-- Modelled from the spec: `Item::creates_event` — "an item that, on
acceptance, produces an event downstream (e.g. a minidump)".  Event-like item
types always create events; attachments create events exactly when their
subtype is a crash report (minidump, Apple crash report, Unreal context). -/
def Item.creates_event (item : Item) : Bool :=
  match item.ty with
  | .event | .transaction | .security | .rawSecurity | .unrealReport => true
  | .attachment =>
    match item.attachment_type with
    | some .minidump | some .appleCrashReport | some .unrealContext => true
    | _ => false
  | _ => false

/-- Modelled from the spec: `Item::requires_event` — items that depend on the
event of the envelope (§4.5: "If the event limit fired: drop every item whose
`requires_event` is true"; the unit tests of `rate_limits.rs` pin attachments,
minidumps and events as removed together).  Session and metrics items are
independent of the event. -/
def Item.requires_event (item : Item) : Bool :=
  match item.ty with
  | .event | .transaction | .security | .rawSecurity | .unrealReport
  | .attachment | .formData | .userReport => true
  | .session | .sessions | .metrics | .metricBuckets => false

/-- Modelled from the spec: an envelope is a header (event id, client remote
address) plus an ordered list of items (§3).  Identities and addresses are
embedded as naturals. -/
structure Envelope where
  event_id : Option Nat
  remote_addr : Option Nat
  items : List Item
deriving DecidableEq, Repr

/-- `infer_event_category` of `rate_limits.rs`: the data category an item
counts against, `none` when the item does not produce an event. -/
def infer_event_category (item : Item) : Option DataCategory :=
  match item.ty with
  | .event => some .error
  | .transaction => some .transaction
  | .security | .rawSecurity => some .security
  | .unrealReport => some .error
  | .attachment => if item.creates_event then some .error else none
  | .session => none
  | .sessions => none
  | .metrics => none
  | .metricBuckets => none
  | .formData => none
  | .userReport => none

/-- `EnvelopeSummary` of `rate_limits.rs`. -/
structure EnvelopeSummary where
  event_category : Option DataCategory
  attachment_quantity : Nat
  session_quantity : Nat
  has_plain_attachments : Bool
  event_id : Option Nat
  remote_addr : Option Nat
deriving DecidableEq, Repr

/-- `EnvelopeSummary::empty` (the `Default` instance, with the envelope's
event id and remote address already retained, as `compute` does first). -/
def EnvelopeSummary.empty (env : Envelope) : EnvelopeSummary :=
  { event_category := none
    attachment_quantity := 0
    session_quantity := 0
    has_plain_attachments := false
    event_id := env.event_id
    remote_addr := env.remote_addr }

/-- `EnvelopeSummary::infer_category`: only fills the event category while it
is still `None` (or the placeholder `Default`). -/
def EnvelopeSummary.infer_category (summary : EnvelopeSummary) (item : Item) :
    EnvelopeSummary :=
  if summary.event_category = none ∨ summary.event_category = some .default then
    match infer_event_category item with
    | some category => { summary with event_category := some category }
    | none => summary
  else
    summary

/-- One step of the aggregation loop of `EnvelopeSummary::compute`. -/
def EnvelopeSummary.computeStep (summary : EnvelopeSummary) (item : Item) :
    EnvelopeSummary :=
  let summary :=
    if item.creates_event then summary.infer_category item
    else if item.ty = .attachment then { summary with has_plain_attachments := true }
    else summary
  -- items already rate limited have been charged and reported; skip them
  if item.rate_limited then summary
  else
    match item.ty with
    | .attachment => { summary with attachment_quantity := summary.attachment_quantity + max item.len 1 }
    | .session => { summary with session_quantity := summary.session_quantity + 1 }
    | _ => summary

/-- `EnvelopeSummary::compute`. -/
def EnvelopeSummary.compute (env : Envelope) : EnvelopeSummary :=
  env.items.foldl EnvelopeSummary.computeStep (EnvelopeSummary.empty env)

/-- `ItemRetention` of `rate_limits.rs`, extended with the (possibly
re-flagged) item since the embedding is purely functional where the source
mutates the item in place. -/
structure ItemRetention where
  applied_limit : Option RateLimit
  retain_in_envelope : Bool
  item : Item
deriving DecidableEq, Repr

/-- `EnvelopeLimiter::retain_item`, as a function of the three limits the
limiter recorded during `execute`. -/
def retain_item (event_limit attachment_limit session_limit : Option RateLimit)
    (item : Item) : ItemRetention :=
  -- Remove event items and all items that depend on this event
  match event_limit, item.requires_event with
  | some l, true => { applied_limit := some l, retain_in_envelope := false, item := item }
  | _, _ =>
    -- Remove attachments, except those required for processing
    match attachment_limit, item.ty == .attachment with
    | some l, true =>
      if item.creates_event then
        if item.rate_limited then
          { applied_limit := none, retain_in_envelope := true, item := item }
        else
          { applied_limit := some l, retain_in_envelope := true
            item := { item with rate_limited := true } }
      else
        { applied_limit := some l, retain_in_envelope := false, item := item }
    | _, _ =>
      -- Remove sessions independently of events
      match session_limit, item.ty == .session with
      | some l, true => { applied_limit := some l, retain_in_envelope := false, item := item }
      | _, _ => { applied_limit := none, retain_in_envelope := true, item := item }

/-- `EnvelopeLimiter::apply_retention`: runs `retain_item` over the envelope's
items, keeping the retained (possibly re-flagged) items and recording one
`(applied_limit, item_category)` pair for every item whose retention carried
an applied limit *and* whose inferred event category is defined. -/
def apply_retention (event_limit attachment_limit session_limit : Option RateLimit) :
    List Item → List Item × List (RateLimit × DataCategory)
  | [] => ([], [])
  | item :: rest =>
    let retention := retain_item event_limit attachment_limit session_limit item
    let (restItems, restPairs) :=
      apply_retention event_limit attachment_limit session_limit rest
    let pairs :=
      match retention.applied_limit, infer_event_category item with
      | some l, some c => (l, c) :: restPairs
      | _, _ => restPairs
    (if retention.retain_in_envelope then retention.item :: restItems else restItems,
     pairs)

/-- The result of `EnvelopeLimiter::execute`: the merged rate limits to
return, the event/attachment/session limits recorded on the limiter, and the
trace of `check` invocations (category and quantity). -/
structure ExecuteResult where
  rate_limits : List RateLimit
  event_limit : Option RateLimit
  attachment_limit : Option RateLimit
  session_limit : Option RateLimit
  calls : List (DataCategory × Nat)
deriving Repr

/-- `EnvelopeLimiter::execute`, with the `check` callback embedded as a pure
function from data category and quantity to the rate limits it reports. -/
def EnvelopeLimiter.execute (check : DataCategory → Nat → List RateLimit)
    (summary : EnvelopeSummary) : ExecuteResult :=
  let (rate_limits, event_limit, calls) :=
    match summary.event_category with
    | some category =>
      let event_limits := check category 1
      (RateLimits.merge [] event_limits, RateLimits.get_active_limit event_limits,
       [(category, 1)])
    | none => ([], none, [])
  let (rate_limits, attachment_limit, calls) :=
    if event_limit = none ∧ summary.attachment_quantity > 0 then
      let attachment_limits := check .attachment summary.attachment_quantity
      -- Only record rate limits for plain attachments.
      let rate_limits :=
        if summary.has_plain_attachments then RateLimits.merge rate_limits attachment_limits
        else rate_limits
      (rate_limits, RateLimits.get_active_limit attachment_limits,
       calls ++ [(.attachment, summary.attachment_quantity)])
    else
      (rate_limits, none, calls)
  let (rate_limits, session_limit, calls) :=
    if summary.session_quantity > 0 then
      let session_limits := check .session summary.session_quantity
      (RateLimits.merge rate_limits session_limits,
       RateLimits.get_active_limit session_limits,
       calls ++ [(.session, summary.session_quantity)])
    else
      (rate_limits, none, calls)
  { rate_limits, event_limit, attachment_limit, session_limit, calls }

/-- The result of `EnvelopeLimiter::enforce` (`RateLimitEnforcement` plus the
final limiter state and the mutated envelope). -/
structure Enforcement where
  envelope : Envelope
  rate_limits : List RateLimit
  limited_items : List (RateLimit × DataCategory)
  summary : EnvelopeSummary
  event_limit : Option RateLimit
  attachment_limit : Option RateLimit
  session_limit : Option RateLimit
  calls : List (DataCategory × Nat)
deriving Repr

/-- `EnvelopeLimiter::enforce` for a limiter constructed with `new check`
(and, when `assumed_category` is set, a preceding `assume_event` call). -/
def EnvelopeLimiter.enforce (check : DataCategory → Nat → List RateLimit)
    (assumed_category : Option DataCategory) (env : Envelope) : Enforcement :=
  let summary := EnvelopeSummary.compute env
  let summary :=
    match assumed_category with
    | some category => { summary with event_category := some category }
    | none => summary
  let r := EnvelopeLimiter.execute check summary
  let (items, limited_items) :=
    apply_retention r.event_limit r.attachment_limit r.session_limit env.items
  { envelope := { env with items := items }
    rate_limits := r.rate_limits
    limited_items := limited_items
    summary := summary
    event_limit := r.event_limit
    attachment_limit := r.attachment_limit
    session_limit := r.session_limit
    calls := r.calls }

/-- A `TrackOutcome` record as produced by
`RateLimitEnforcement::emit_outcomes` (the wall-clock timestamp is outside
the embedding). -/
structure TrackOutcome where
  scoping : Scoping
  reason_code : Option Str
  event_id : Option Nat
  remote_addr : Option Nat
  category : DataCategory
  quantity : Nat
deriving DecidableEq, Repr

/-- `RateLimitEnforcement::emit_outcomes`: one rate-limited outcome per
recorded `(applied_limit, item_category)` pair. -/
def Enforcement.emit_outcomes (e : Enforcement) (scoping : Scoping) :
    List TrackOutcome :=
  e.limited_items.map fun p =>
    { scoping := scoping
      reason_code := p.1.reason_code
      event_id := e.summary.event_id
      remote_addr := e.summary.remote_addr
      category := p.2
      quantity := match p.2 with
        | .attachment => e.summary.attachment_quantity
        | _ => 1 }

/-! ## String utilities

Embeddings of the Rust string operations used by the header parser:
`str::split` (on a single character), `str::trim`, and decimal formatting
and parsing of integers.  `Char.isWhitespace` agrees with Rust's trimming on
the ASCII whitespace the header can contain. -/

/-- Rust `str::split(sep)`: splits at every occurrence of `sep`, keeping
empty pieces (`"".split(sep)` yields one empty piece). -/
def splitOnChar (sep : Char) : Str → List Str
  | [] => [[]]
  | c :: rest =>
    let r := splitOnChar sep rest
    if c = sep then
      [] :: r
    else
      match r with
      | h :: t => (c :: h) :: t
      | [] => [[c]]

/-- Rust `str::trim`. -/
def trimChars (s : Str) : Str :=
  ((s.dropWhile Char.isWhitespace).reverse.dropWhile Char.isWhitespace).reverse

/-- A decimal digit character (`d` is always below ten at call sites). -/
def digitChar (d : Nat) : Char :=
  match d with
  | 0 => '0' | 1 => '1' | 2 => '2' | 3 => '3' | 4 => '4'
  | 5 => '5' | 6 => '6' | 7 => '7' | 8 => '8' | _ => '9'

/-- Decimal formatting of a natural number (Rust `u64: Display`). -/
def natToStr (n : Nat) : Str :=
  if h : n < 10 then [digitChar n]
  else
    have : n / 10 < n := Nat.div_lt_self (by omega) (by omega)
    natToStr (n / 10) ++ [digitChar (n % 10)]

/-- The numeric value of a decimal digit character, if it is one. -/
def parseDigit (c : Char) : Option Nat :=
  if 48 ≤ c.toNat ∧ c.toNat ≤ 57 then some (c.toNat - 48) else none

/-- Left-to-right accumulation of decimal digits. -/
def parseNatAux : Str → Nat → Option Nat
  | [], acc => some acc
  | c :: rest, acc =>
    match parseDigit c with
    | some d => parseNatAux rest (acc * 10 + d)
    | none => none

/-- Modelled from the spec: `retry_after_seconds` parses as a nonnegative
decimal integer (the `RetryAfter: FromStr` of the `relay-quotas` crate);
anything else fails. -/
def parseNat (s : Str) : Option Nat :=
  if s = [] then none else parseNatAux s 0

/-! ## `format_rate_limits` and `parse_rate_limits` -/

/-- The category list of one header entry, `';'`-separated (the
`enumerate`/`index > 0` loop of `format_rate_limits`). -/
def joinCategories : List DataCategory → Str
  | [] => []
  | [c] => c.name
  | c :: rest => c.name ++ ';' :: joinCategories rest

/-- One entry of the `X-Sentry-Rate-Limits` header:
`retry_after ":" categories ":" scope (":" reason_code)?`. -/
def formatRateLimit (l : RateLimit) : Str :=
  natToStr l.retry_after ++ ':' :: joinCategories l.categories ++ ':' :: l.scope.name ++
    (match l.reason_code with
     | some r => ':' :: r
     | none => [])

/-- `format_rate_limits`: formats the `X-Sentry-Rate-Limits` header, joining
entries with `", "` (the `is_empty` test of the accumulating loop). -/
def format_rate_limits (rate_limits : List RateLimit) : Str :=
  rate_limits.foldl
    (fun header l =>
      (if header = [] then header else header ++ [',', ' ']) ++ formatRateLimit l)
    []

/-- One iteration of the entry loop of `parse_rate_limits`: trim the raw
entry, skip it if empty or if its retry-after seconds do not parse, and
otherwise add the parsed limit. -/
def parseLimitEntry (scoping : Scoping) (acc : List RateLimit) (limitRaw : Str) :
    List RateLimit :=
  let limit := trimChars limitRaw
  if limit = [] then acc
  else
    let components := splitOnChar ':' limit
    match parseNat ((components.get? 0).getD []) with
    | none => acc
    | some retry_after =>
      let categories :=
        (splitOnChar ';' ((components.get? 1).getD [])).filterMap fun c =>
          if c = [] then none else some (DataCategory.from_name c)
      let quota_scope := QuotaScope.from_name ((components.get? 2).getD [])
      let scope := RateLimitScope.for_quota scoping quota_scope
      let reason_code := components.get? 3
      RateLimits.add acc
        { categories := categories, scope := scope, reason_code := reason_code
          retry_after := retry_after }

/-- `parse_rate_limits`: parses the `X-Sentry-Rate-Limits` header against a
scoping. -/
def parse_rate_limits (scoping : Scoping) (s : Str) : List RateLimit :=
  (splitOnChar ',' s).foldl (parseLimitEntry scoping) []

/-! ## `DataScrubbingConfig` → `PiiConfig` projection (`datascrubbing/convert.rs`) -/

/-- `DataScrubbingConfig` (the fields read by `to_pii_config`). -/
structure DataScrubbingConfig where
  scrub_data : Bool
  scrub_defaults : Bool
  scrub_ip_addresses : Bool
  sensitive_fields : List Str
  exclude_fields : List Str
deriving DecidableEq, Repr

/-- `SelectorPathItem` (the constructors `to_pii_config` produces). -/
inductive SelectorPathItem where
  | deepWildcard
  | key (name : Str)
deriving DecidableEq, Repr

/-- `SelectorSpec` (the constructors `to_pii_config` produces). -/
inductive SelectorSpec where
  | path (items : List SelectorPathItem)
  | and_ (specs : List SelectorSpec)
  | not_ (spec : SelectorSpec)

/-- A compiled `Pattern`: the regex source together with the
`case_insensitive` flag of its `RegexBuilder`. -/
structure Pattern where
  source : Str
  case_insensitive : Bool
deriving DecidableEq, Repr

/-- `RuleType` (the constructor `to_pii_config` produces). -/
inductive RuleType where
  | redactPair (key_pattern : Pattern)
deriving DecidableEq, Repr

/-- The redactions a rule can carry (`pii::Redaction`). -/
inductive Redaction where
  | default
  | remove
  | mask
  | hash
  | replace (text : Str)
deriving DecidableEq, Repr

/-- `RuleSpec`. -/
structure RuleSpec where
  ty : RuleType
  redaction : Redaction
deriving DecidableEq, Repr

/-- `PiiConfig` (rules and applications as insertion-ordered association
lists, embedding the `BTreeMap`s with their single insertion each). -/
structure PiiConfig where
  rules : List (Str × RuleSpec)
  applications : List (SelectorSpec × List Str)

/-- `regex::escape` on one character: every meta character of the `regex`
crate is preceded by a backslash. -/
def regexEscapeChar (c : Char) : Str :=
  if c = '\\' ∨ c = '.' ∨ c = '+' ∨ c = '*' ∨ c = '?' ∨ c = '(' ∨ c = ')' ∨
     c = '|' ∨ c = '[' ∨ c = ']' ∨ c = '\x7b' ∨ c = '\x7d' ∨ c = '^' ∨
     c = '$' ∨ c = '#' ∨ c = '&' ∨ c = '-' ∨ c = '~' then
    ['\\', c]
  else
    [c]

/-- `regex::escape`. -/
def regexEscape (s : Str) : Str :=
  s.flatMap regexEscapeChar

/-- The `sensitive_fields` loop of `to_pii_config`: iterates with
`enumerate`, skipping empty fields, pushing `'|'` before any field whose
index is positive, and tracking whether anything was pushed at all. -/
def sensitiveFieldsLoop : List Str → Nat → Str → Bool → Str × Bool
  | [], _, re, is_empty => (re, is_empty)
  | field :: rest, idx, re, is_empty =>
    if field = [] then
      sensitiveFieldsLoop rest (idx + 1) re is_empty
    else
      let re := (if idx > 0 then re ++ ['|'] else re) ++ regexEscape field
      sensitiveFieldsLoop rest (idx + 1) re false

/-- The `sensitive_fields_re` block of `to_pii_config`: a key-pattern regex
`".*(" … ").*"` over the sensitive fields, or `none` when nothing was
pushed. -/
def sensitive_fields_re (fields : List Str) : Option Str :=
  let (re, is_empty) := sensitiveFieldsLoop fields 0 ".*(".toList true
  if ¬ is_empty then some (re ++ ").*".toList) else none

/-- `to_pii_config` of `datascrubbing/convert.rs`. -/
def to_pii_config (c : DataScrubbingConfig) : Option PiiConfig :=
  let applied_rules : List Str :=
    if c.scrub_data ∧ c.scrub_defaults then ["@common:filter".toList]
    else if c.scrub_ip_addresses then ["@ip:filter".toList]
    else []
  let stripRule : Str → RuleSpec := fun key_pattern =>
    { ty := RuleType.redactPair { source := key_pattern, case_insensitive := true }
      redaction := Redaction.replace "[filtered]".toList }
  let (custom_rules, applied_rules) :=
    if c.scrub_data then
      match sensitive_fields_re c.sensitive_fields with
      | some key_pattern =>
        ([("strip-fields".toList, stripRule key_pattern)],
         applied_rules ++ ["strip-fields".toList])
      | none => ([], applied_rules)
    else ([], applied_rules)
  if applied_rules = [] then none
  else
    let selector :=
      if c.exclude_fields = [] then
        SelectorSpec.path [SelectorPathItem.deepWildcard]
      else
        let fields := c.exclude_fields.map fun field =>
          SelectorSpec.not_ (SelectorSpec.path [SelectorPathItem.key field])
        if c.exclude_fields.length > 1 then SelectorSpec.and_ fields
        else fields.headD (SelectorSpec.path [])
    some { rules := custom_rules, applications := [(selector, applied_rules)] }

/-- The key pattern of the `strip-fields` rule of a projected config, if
present. -/
def stripFieldsPattern (config : Option PiiConfig) : Option Pattern :=
  match config with
  | none => none
  | some config =>
    match config.rules.find? (fun r => r.1 == "strip-fields".toList) with
    | some (_, rule) =>
      match rule.ty with
      | RuleType.redactPair p => some p
    | none => none

/-! ## Attachment scrubber primitives (`pii/attachments.rs`)

Byte buffers are embedded as `List Nat`.  The regex machinery only selects
*where* a redaction is applied; the redaction itself is applied in place by
the `StringMods` primitives below.  The scrubber is therefore modelled as the
application of an arbitrary list of redaction spans (a superset of everything
`apply_regex_to_utf8_bytes` / `apply_regex_to_utf16le_bytes` can produce) to
the buffer. -/

/-- UTF-8 encoding of one character (`char::encode_utf8`). -/
def utf8EncodeChar (c : Char) : List Nat :=
  let v := c.toNat
  if v < 0x80 then [v]
  else if v < 0x800 then
    [0xC0 + v / 64, 0x80 + v % 64]
  else if v < 0x10000 then
    [0xE0 + v / 4096, 0x80 + v / 64 % 64, 0x80 + v % 64]
  else
    [0xF0 + v / 262144, 0x80 + v / 4096 % 64, 0x80 + v / 64 % 64, 0x80 + v % 64]

/-- `str::as_bytes`: the UTF-8 encoding of a string. -/
def strToUtf8 (s : Str) : List Nat :=
  s.flatMap utf8EncodeChar

/-- UTF-16 encoding of one character (`char::encode_utf16`), as a list of
code units. -/
def utf16EncodeChar (c : Char) : List Nat :=
  let v := c.toNat
  if v < 0x10000 then [v]
  else [0xD800 + (v - 0x10000) / 0x400, 0xDC00 + (v - 0x10000) % 0x400]

/-- `str::encode_utf16`: the UTF-16 code units of a string. -/
def strToUtf16 (s : Str) : List Nat :=
  s.flatMap utf16EncodeChar

/-- `<[u8] as StringMods>::fill_content`: overwrite every byte of the slice
with the (one-byte) fill character. -/
def fill_content_u8 (s : List Nat) (fill_byte : Nat) : List Nat :=
  s.map fun _ => fill_byte

/-- `<[u8] as StringMods>::swap_content`: copy the first
`min (replacement.length) (s.length)` bytes of the replacement over the head
of the slice and overwrite the rest with the (one-byte) padding character.
Note that the cutoff is a plain byte count: a multi-byte UTF-8 character of
the replacement that straddles the cutoff is split, not dropped. -/
def swap_content_u8 (s replacement : List Nat) (padding_byte : Nat) : List Nat :=
  let cutoff := min replacement.length s.length
  replacement.take cutoff ++ List.replicate (s.length - cutoff) padding_byte

/-- `<WStr as StringMods>::fill_content`: overwrite every complete two-byte
chunk (`chunks_exact_mut(2)`) with the little-endian fill code unit. -/
def fill_content_wstr : List Nat → Nat → Nat → List Nat
  | _ :: _ :: rest, lo, hi => lo :: hi :: fill_content_wstr rest lo hi
  | rest, _, _ => rest

/-- The write loop of `<WStr as StringMods>::swap_content`: writes
little-endian code units while enough space remains.  Any unit `u` with
`u &&& 0xD800 = 0xD800` (the source's leading-surrogate test, which also
matches trailing surrogates) demands four bytes of remaining space; writing
advances by two bytes. -/
def wstrWriteCodes : List Nat → Nat → List Nat
  | [], _ => []
  | u :: rest, space =>
    let char_len := if u &&& 0xD800 = 0xD800 then 4 else 2
    if space < char_len then []
    else u % 256 :: u / 256 % 256 :: wstrWriteCodes rest (space - 2)

/-- `<WStr as StringMods>::swap_content`: write the replacement's code units
from the front, then fill every remaining complete two-byte chunk with the
little-endian padding code unit. -/
def swap_content_wstr (s : List Nat) (codes : List Nat) (padLo padHi : Nat) :
    List Nat :=
  let written := wstrWriteCodes codes s.length
  written ++ fill_content_wstr (s.drop written.length) padLo padHi

/-- `StringMods::apply_redaction` for the UTF-8 (`[u8]`) implementation.
`PADDING = 'x'` (byte 120), `MASK = '*'` (byte 42); `hash_value` (HMAC-SHA1
of the slice, uppercase hex) is abstracted as the `hashFn` parameter. -/
def apply_redaction_u8 (hashFn : List Nat → Str) (s : List Nat)
    (redaction : Redaction) : List Nat :=
  match redaction with
  | .default | .remove => fill_content_u8 s 120
  | .mask => fill_content_u8 s 42
  | .hash => swap_content_u8 s (strToUtf8 (hashFn s)) 120
  | .replace text => swap_content_u8 s (strToUtf8 text) 120

/-- `StringMods::apply_redaction` for the UTF-16LE (`WStr`) implementation;
`'x'` is code unit `0x0078`, `'*'` is `0x002A`, both little-endian. -/
def apply_redaction_wstr (hashFn : List Nat → Str) (s : List Nat)
    (redaction : Redaction) : List Nat :=
  match redaction with
  | .default | .remove => fill_content_wstr s 120 0
  | .mask => fill_content_wstr s 42 0
  | .hash => swap_content_wstr s (strToUtf16 (hashFn s)) 120 0
  | .replace text => swap_content_wstr s (strToUtf16 text) 120 0

/-- One redaction application of the scrubber: a byte span of the buffer
(`data[start..end].apply_redaction(..)` of the UTF-8 pass, or the projected
`WStr` sub-slice of a decoded segment in the UTF-16LE pass) together with the
redaction to apply. -/
inductive ScrubSpan where
  | utf8 (start stop : Nat) (redaction : Redaction)
  | utf16 (start stop : Nat) (redaction : Redaction)

/-- Apply an in-place transformation to the byte span `[start, start + n)` of
a buffer, where `n` is the length of the selected segment: the buffer around
the span is untouched. -/
def applyAt (B : List Nat) (start stop : Nat) (f : List Nat → List Nat) :
    List Nat :=
  let mid := f ((B.drop start).take (stop - start))
  B.take start ++ mid ++ B.drop (start + mid.length)

/-- Apply one redaction span to the buffer. -/
def applySpan (hashFn : List Nat → Str) (B : List Nat) : ScrubSpan → List Nat
  | .utf8 start stop redaction =>
    applyAt B start stop fun seg => apply_redaction_u8 hashFn seg redaction
  | .utf16 start stop redaction =>
    applyAt B start stop fun seg => apply_redaction_wstr hashFn seg redaction

/-- `PiiAttachmentsProcessor::scrub_bytes`, abstracted over the redaction
spans the compiled config's regexes produce: both passes of every rule apply
their redactions span by span, in place. -/
def scrub_bytes (hashFn : List Nat → Str) (spans : List ScrubSpan)
    (B : List Nat) : List Nat :=
  spans.foldl (applySpan hashFn) B

/-! ## Relay-info cache (`actors/keys.rs`)

The actor is embedded as explicit state passing.  Wall-clock instants are
naturals (`elapsed = now - checked_at`); `oneshot` channels are opaque
tokens; the `HashMap`s are association lists with unique keys.  `Config` is
the one of `relay-config/src/config.rs`, projected to the accessors
`keys.rs` reads.  The actix runtime, the upstream actor and `RetryBackoff`
(from `relay-common`) are outside the provided sources and are modelled
from the spec. -/

/-- A relay identifier (`RelayId`, a UUID), embedded as a natural. -/
abbrev RelayId := Nat

/-- `RelayInfo`: a public key plus the `internal` flag. -/
structure RelayInfo where
  public_key : Nat
  internal : Bool
deriving DecidableEq, Repr

/-- `RelayInfo::new`: promotes a bare public key (legacy format). -/
def RelayInfo.new (public_key : Nat) : RelayInfo :=
  { public_key := public_key, internal := false }

/-- `RelayInfoState`: a positive or negative cache entry with its check
time. -/
inductive RelayInfoState where
  | infoExists (relay_info : RelayInfo) (checked_at : Nat)
  | doesNotExist (checked_at : Nat)
deriving DecidableEq, Repr

/-- The slice of `Config` (`relay-config/src/config.rs`) read by the cache:
the getters `relay_cache_expiry`, `cache_miss_expiry`,
`query_batch_interval` and `http_max_retry_interval` (each a `Duration`
built from a configured integer, embedded as that natural), and
`credentials()` (the optional `Credentials`, embedded as its public key). -/
structure CacheConfig where
  relay_cache_expiry : Nat
  cache_miss_expiry : Nat
  query_batch_interval : Nat
  http_max_retry_interval : Nat
  credentials : Option Nat
deriving DecidableEq, Repr

/-- `RelayInfoState::is_valid_cache`. -/
def RelayInfoState.is_valid_cache (state : RelayInfoState) (config : CacheConfig)
    (now : Nat) : Bool :=
  match state with
  | .infoExists _ checked_at => now - checked_at < config.relay_cache_expiry
  | .doesNotExist checked_at => now - checked_at < config.cache_miss_expiry

/-- `RelayInfoState::as_option`. -/
def RelayInfoState.as_option : RelayInfoState → Option RelayInfo
  | .infoExists relay_info _ => some relay_info
  | .doesNotExist _ => none

/-- `RelayInfoState::from_option` (at the current instant). -/
def RelayInfoState.from_option (option : Option RelayInfo) (now : Nat) :
    RelayInfoState :=
  match option with
  | some relay_info => .infoExists relay_info now
  | none => .doesNotExist now

/-- A `RelayInfoChannel`, embedded as an opaque token identifying the oneshot
pair. -/
abbrev RelayInfoChannel := Nat

/-- Association-list lookup (`HashMap::get`). -/
def lookupAssoc {α : Type} (m : List (RelayId × α)) (id : RelayId) : Option α :=
  (m.find? fun p => p.1 == id).map Prod.snd

/-- Association-list insert (`HashMap::insert`: replaces an existing key). -/
def insertAssoc {α : Type} (m : List (RelayId × α)) (id : RelayId) (v : α) :
    List (RelayId × α) :=
  match m with
  | [] => [(id, v)]
  | p :: rest => if p.1 = id then (id, v) :: rest else p :: insertAssoc rest id v

/-- `HashMap::extend`: insert every pair of `new`, overwriting existing
keys. -/
def extendAssoc {α : Type} (m new : List (RelayId × α)) : List (RelayId × α) :=
  new.foldl (fun acc p => insertAssoc acc p.1 p.2) m

/-- Modelled from the spec: `RetryBackoff::next_backoff` — an exponentially
increasing delay, capped at `http_max_retry_interval`; `attempt` counts the
fetches scheduled since the last reset. -/
def backoffDelay (max_interval attempt : Nat) : Nat :=
  min max_interval (100 * 2 ^ attempt)

/-- The state of the `RelayInfoCache` actor. -/
structure RelayInfoCache where
  backoff_attempt : Nat
  backoff_started : Bool
  relays : List (RelayId × RelayInfoState)
  relay_info_channels : List (RelayId × RelayInfoChannel)
  scheduled_fetch_delay : Option Nat
deriving DecidableEq, Repr

/-- `RelayInfoCache::schedule_fetch`: run the fetch after
`query_batch_interval + backoff.next_backoff()`; the backoff attempt
escalates. -/
def RelayInfoCache.schedule_fetch (config : CacheConfig) (s : RelayInfoCache) :
    RelayInfoCache :=
  { s with
    scheduled_fetch_delay :=
      some (config.query_batch_interval +
        backoffDelay config.http_max_retry_interval s.backoff_attempt)
    backoff_attempt := s.backoff_attempt + 1
    backoff_started := true }

/-- The first phase of `RelayInfoCache::fetch_keys`: drain the in-flight
channel map (`mem::replace(&mut self.relay_info_channels, HashMap::new())`)
and build the upstream `GetRelaysInfo` query from every pending relay id. -/
structure FetchStart where
  request_relay_ids : List RelayId
  drained : List (RelayId × RelayInfoChannel)
  state : RelayInfoCache

/-- `fetch_keys`, up to the upstream send. -/
def RelayInfoCache.fetch_keys_start (s : RelayInfoCache) : FetchStart :=
  { request_relay_ids := s.relay_info_channels.map Prod.fst
    drained := s.relay_info_channels
    state := { s with relay_info_channels := [], scheduled_fetch_delay := none } }

/-- The second phase of `fetch_keys`: the upstream response arrives (`none`
embeds the error case) while the actor state may have accumulated new
channels in the meantime.  Returns the new state together with the messages
sent on the drained channels. -/
def RelayInfoCache.fetch_keys_complete (config : CacheConfig) (now : Nat)
    (s : RelayInfoCache) (drained : List (RelayId × RelayInfoChannel))
    (response : Option (List (RelayId × Option RelayInfo))) :
    RelayInfoCache × List (RelayInfoChannel × Option RelayInfo) :=
  let (s, sends) :=
    match response with
    | some relays =>
      let s := { s with backoff_attempt := 0, backoff_started := false }
      drained.foldl
        (fun (acc : RelayInfoCache × List (RelayInfoChannel × Option RelayInfo))
             (p : RelayId × RelayInfoChannel) =>
          let info := (lookupAssoc relays p.1).getD none
          ({ acc.1 with
             relays := insertAssoc acc.1.relays p.1 (RelayInfoState.from_option info now) },
           acc.2 ++ [(p.2, info)]))
        (s, [])
    | none =>
      -- Put the channels back into the queue, in addition to channels that
      -- have been pushed in the meanwhile.  We will retry again shortly.
      ({ s with relay_info_channels := extendAssoc s.relay_info_channels drained }, [])
  if s.relay_info_channels ≠ [] then (s.schedule_fetch config, sends) else (s, sends)

/-- The result of `get_or_fetch_info`: either a synchronous reply or a
pending receiver registered under the relay id. -/
inductive GetResult where
  | sync (info : Option RelayInfo)
  | register (id : RelayId)
deriving DecidableEq, Repr

/-- The no-valid-cache path of `get_or_fetch_info`: without credentials the
request is answered synchronously with `Ok(None)`; otherwise a fetch is
scheduled (unless the backoff is already running) and a receiver is
registered against the id's channel, creating one if absent. -/
def RelayInfoCache.get_or_fetch_info_miss (config : CacheConfig)
    (s : RelayInfoCache) (relay_id : RelayId) (fresh_channel : RelayInfoChannel) :
    RelayInfoCache × GetResult :=
  if config.credentials = none then
    (s, .sync none)
  else
    let s := if ¬ s.backoff_started then s.schedule_fetch config else s
    let s :=
      match lookupAssoc s.relay_info_channels relay_id with
      | some _ => s
      | none =>
        { s with
          relay_info_channels :=
            insertAssoc s.relay_info_channels relay_id fresh_channel }
    (s, .register relay_id)

/-- `RelayInfoCache::get_or_fetch_info`. -/
def RelayInfoCache.get_or_fetch_info (config : CacheConfig) (now : Nat)
    (s : RelayInfoCache) (relay_id : RelayId) (fresh_channel : RelayInfoChannel) :
    RelayInfoCache × GetResult :=
  match lookupAssoc s.relays relay_id with
  | some key =>
    if key.is_valid_cache config now then
      (s, .sync key.as_option)
    else
      RelayInfoCache.get_or_fetch_info_miss config s relay_id fresh_channel
  | none => RelayInfoCache.get_or_fetch_info_miss config s relay_id fresh_channel

/-! ## Length preservation of the attachment scrubber (claim C1) -/

theorem fill_content_u8_length (s : List Nat) (b : Nat) :
    (fill_content_u8 s b).length = s.length := by
  simp [fill_content_u8]

theorem swap_content_u8_length (s r : List Nat) (b : Nat) :
    (swap_content_u8 s r b).length = s.length := by
  simp only [swap_content_u8, List.length_append, List.length_take,
    List.length_replicate]
  omega

theorem fill_content_wstr_length (s : List Nat) (lo hi : Nat) :
    (fill_content_wstr s lo hi).length = s.length := by
  induction s, lo, hi using fill_content_wstr.induct with
  | case1 _ _ rest lo hi ih => simpa [fill_content_wstr] using ih
  | case2 rest lo hi h => simp [fill_content_wstr]

theorem wstrWriteCodes_length_le :
    ∀ (codes : List Nat) (space : Nat), (wstrWriteCodes codes space).length ≤ space
  | [], space => by simp [wstrWriteCodes]
  | u :: rest, space => by
    have ih := wstrWriteCodes_length_le rest (space - 2)
    simp only [wstrWriteCodes]
    rcases Nat.lt_or_ge space 2 with hs | hs
    · have hlt : space < (if u &&& 0xD800 = 0xD800 then 4 else 2) := by
        split <;> omega
      rw [if_pos hlt]
      simp
    · by_cases hc : u &&& 0xD800 = 0xD800
      · rw [if_pos hc]
        split
        · simp
        · simp only [List.length_cons]
          omega
      · rw [if_neg hc]
        split
        · simp
        · simp only [List.length_cons]
          omega

theorem swap_content_wstr_length (s codes : List Nat) (lo hi : Nat) :
    (swap_content_wstr s codes lo hi).length = s.length := by
  have hle := wstrWriteCodes_length_le codes s.length
  simp only [swap_content_wstr, List.length_append, fill_content_wstr_length,
    List.length_drop]
  omega

theorem apply_redaction_u8_length (hashFn : List Nat → Str) (s : List Nat)
    (redaction : Redaction) :
    (apply_redaction_u8 hashFn s redaction).length = s.length := by
  cases redaction <;>
    simp [apply_redaction_u8, fill_content_u8_length, swap_content_u8_length]

theorem apply_redaction_wstr_length (hashFn : List Nat → Str) (s : List Nat)
    (redaction : Redaction) :
    (apply_redaction_wstr hashFn s redaction).length = s.length := by
  cases redaction <;>
    simp [apply_redaction_wstr, fill_content_wstr_length, swap_content_wstr_length]

theorem applyAt_length (B : List Nat) (start stop : Nat)
    (f : List Nat → List Nat) (hf : ∀ xs, (f xs).length = xs.length) :
    (applyAt B start stop f).length = B.length := by
  simp only [applyAt, List.length_append, List.length_take, List.length_drop, hf]
  omega

theorem applySpan_length (hashFn : List Nat → Str) (B : List Nat)
    (span : ScrubSpan) : (applySpan hashFn B span).length = B.length := by
  cases span with
  | utf8 start stop redaction =>
    exact applyAt_length B start stop _ fun xs => apply_redaction_u8_length hashFn xs redaction
  | utf16 start stop redaction =>
    exact applyAt_length B start stop _ fun xs => apply_redaction_wstr_length hashFn xs redaction

/-- Claim C1: for every byte buffer, every redaction span list a compiled PII
config's rules can produce (both the UTF-8 pass and the UTF-16LE pass), and
every redaction method (replace, mask, hash, remove, default), the attachment
scrubber `scrub_bytes` mutates the buffer strictly in place: after scrubbing
the buffer has exactly as many bytes as before. -/
theorem c1_scrub_bytes_length_preserved (hashFn : List Nat → Str)
    (spans : List ScrubSpan) (B : List Nat) :
    (scrub_bytes hashFn spans B).length = B.length := by
  induction spans generalizing B with
  | nil => rfl
  | cons span rest ih =>
    simp only [scrub_bytes, List.foldl_cons] at *
    rw [ih, applySpan_length]

/-- Claim C8: the actual behavior of `swap_content` on the failing inputs.
The `[u8]` implementation copies a plain byte-count prefix of the
replacement: a one-byte slice swapped with `"é"` (UTF-8 `C3 A9`) receives the
dangling lead byte `0xC3` instead of the padding byte `0x78` that the doc
comment of `StringMods::swap_content` (a straddling character is dropped and
the tail padded) prescribes.  The `WStr` implementation classifies trailing
surrogates as four-byte characters, so an astral character that exactly fits
a four-byte slice is written only halfway: a lone lead surrogate
`00 D8` followed by padding `78 00`, instead of the full pair `00 D8 00 DC`. -/
theorem c8_swap_content_splits_characters :
    swap_content_u8 [97] (strToUtf8 ['é']) 120 = [0xC3] ∧
    swap_content_u8 [97] (strToUtf8 ['é']) 120 ≠ [120] ∧
    swap_content_wstr [104, 0, 101, 0] (strToUtf16 [Char.ofNat 0x10000]) 120 0 =
      [0x00, 0xD8, 0x78, 0x00] ∧
    swap_content_wstr [104, 0, 101, 0] (strToUtf16 [Char.ofNat 0x10000]) 120 0 ≠
      [0x00, 0xD8, 0x00, 0xDC] := by
  refine ⟨?_, ?_, ?_, ?_⟩ <;> decide

/-! ## Characterizations of the envelope limiter -/

theorem apply_retention_fst (eL aL sL : Option RateLimit) (items : List Item) :
    (apply_retention eL aL sL items).1 =
      items.filterMap fun i =>
        let r := retain_item eL aL sL i
        if r.retain_in_envelope then some r.item else none := by
  induction items with
  | nil => rfl
  | cons i rest ih =>
    simp only [apply_retention, List.filterMap_cons]
    rw [← ih]
    cases hr : (retain_item eL aL sL i).retain_in_envelope <;> simp [hr]

theorem apply_retention_snd (eL aL sL : Option RateLimit) (items : List Item) :
    (apply_retention eL aL sL items).2 =
      items.filterMap fun i =>
        match (retain_item eL aL sL i).applied_limit, infer_event_category i with
        | some l, some c => some (l, c)
        | _, _ => none := by
  induction items with
  | nil => rfl
  | cons i rest ih =>
    simp only [apply_retention, List.filterMap_cons]
    rw [← ih]
    cases hl : (retain_item eL aL sL i).applied_limit <;>
      cases hc : infer_event_category i <;> simp [hl, hc]

/-- The event limit `execute` records (step one of the check sequence). -/
def eventLimitOf (check : DataCategory → Nat → List RateLimit)
    (s : EnvelopeSummary) : Option RateLimit :=
  match s.event_category with
  | some category => RateLimits.get_active_limit (check category 1)
  | none => none

theorem execute_event_limit (check : DataCategory → Nat → List RateLimit)
    (s : EnvelopeSummary) :
    (EnvelopeLimiter.execute check s).event_limit = eventLimitOf check s := by
  obtain ⟨cat, aq, sq, hp, eid, ra⟩ := s
  cases cat <;>
    simp only [EnvelopeLimiter.execute, eventLimitOf]

theorem execute_attachment_limit (check : DataCategory → Nat → List RateLimit)
    (s : EnvelopeSummary) :
    (EnvelopeLimiter.execute check s).attachment_limit =
      if eventLimitOf check s = none ∧ 0 < s.attachment_quantity then
        RateLimits.get_active_limit (check .attachment s.attachment_quantity)
      else none := by
  obtain ⟨cat, aq, sq, hp, eid, ra⟩ := s
  cases cat <;>
    simp only [EnvelopeLimiter.execute, eventLimitOf] <;>
    split_ifs <;> simp_all

theorem execute_session_limit (check : DataCategory → Nat → List RateLimit)
    (s : EnvelopeSummary) :
    (EnvelopeLimiter.execute check s).session_limit =
      if 0 < s.session_quantity then
        RateLimits.get_active_limit (check .session s.session_quantity)
      else none := by
  obtain ⟨cat, aq, sq, hp, eid, ra⟩ := s
  cases cat <;>
    simp only [EnvelopeLimiter.execute, eventLimitOf] <;>
    split_ifs <;> simp_all

theorem execute_calls (check : DataCategory → Nat → List RateLimit)
    (s : EnvelopeSummary) :
    (EnvelopeLimiter.execute check s).calls =
      (match s.event_category with
       | some category => [(category, 1)]
       | none => []) ++
      (if eventLimitOf check s = none ∧ 0 < s.attachment_quantity then
        [(DataCategory.attachment, s.attachment_quantity)]
       else []) ++
      (if 0 < s.session_quantity then
        [(DataCategory.session, s.session_quantity)]
       else []) := by
  obtain ⟨cat, aq, sq, hp, eid, ra⟩ := s
  cases cat <;>
    simp only [EnvelopeLimiter.execute, eventLimitOf] <;>
    split_ifs <;> simp_all

theorem execute_rate_limits (check : DataCategory → Nat → List RateLimit)
    (s : EnvelopeSummary) :
    (EnvelopeLimiter.execute check s).rate_limits =
      RateLimits.merge
        (RateLimits.merge
          (match s.event_category with
           | some category => RateLimits.merge [] (check category 1)
           | none => [])
          (if eventLimitOf check s = none ∧ 0 < s.attachment_quantity ∧
              s.has_plain_attachments = true then
            check .attachment s.attachment_quantity
           else []))
        (if 0 < s.session_quantity then check .session s.session_quantity
         else []) := by
  obtain ⟨cat, aq, sq, hp, eid, ra⟩ := s
  cases cat <;> cases hp <;>
    simp only [EnvelopeLimiter.execute, eventLimitOf, RateLimits.merge] <;>
    split_ifs <;> simp_all

/-- The summary `enforce` computes (with the assumed event category applied
on top, when present). -/
def summaryOf (assumed_category : Option DataCategory) (env : Envelope) :
    EnvelopeSummary :=
  let summary := EnvelopeSummary.compute env
  match assumed_category with
  | some category => { summary with event_category := some category }
  | none => summary

theorem enforce_summary (check : DataCategory → Nat → List RateLimit)
    (ec : Option DataCategory) (env : Envelope) :
    (EnvelopeLimiter.enforce check ec env).summary = summaryOf ec env := rfl

theorem enforce_event_limit (check : DataCategory → Nat → List RateLimit)
    (ec : Option DataCategory) (env : Envelope) :
    (EnvelopeLimiter.enforce check ec env).event_limit =
      (EnvelopeLimiter.execute check (summaryOf ec env)).event_limit := rfl

theorem enforce_attachment_limit (check : DataCategory → Nat → List RateLimit)
    (ec : Option DataCategory) (env : Envelope) :
    (EnvelopeLimiter.enforce check ec env).attachment_limit =
      (EnvelopeLimiter.execute check (summaryOf ec env)).attachment_limit := rfl

theorem enforce_session_limit (check : DataCategory → Nat → List RateLimit)
    (ec : Option DataCategory) (env : Envelope) :
    (EnvelopeLimiter.enforce check ec env).session_limit =
      (EnvelopeLimiter.execute check (summaryOf ec env)).session_limit := rfl

theorem enforce_calls (check : DataCategory → Nat → List RateLimit)
    (ec : Option DataCategory) (env : Envelope) :
    (EnvelopeLimiter.enforce check ec env).calls =
      (EnvelopeLimiter.execute check (summaryOf ec env)).calls := rfl

theorem enforce_rate_limits (check : DataCategory → Nat → List RateLimit)
    (ec : Option DataCategory) (env : Envelope) :
    (EnvelopeLimiter.enforce check ec env).rate_limits =
      (EnvelopeLimiter.execute check (summaryOf ec env)).rate_limits := rfl

theorem enforce_envelope (check : DataCategory → Nat → List RateLimit)
    (ec : Option DataCategory) (env : Envelope) :
    (EnvelopeLimiter.enforce check ec env).envelope =
      { env with
        items :=
          (apply_retention
            (EnvelopeLimiter.execute check (summaryOf ec env)).event_limit
            (EnvelopeLimiter.execute check (summaryOf ec env)).attachment_limit
            (EnvelopeLimiter.execute check (summaryOf ec env)).session_limit
            env.items).1 } := rfl

theorem enforce_limited_items (check : DataCategory → Nat → List RateLimit)
    (ec : Option DataCategory) (env : Envelope) :
    (EnvelopeLimiter.enforce check ec env).limited_items =
      (apply_retention
        (EnvelopeLimiter.execute check (summaryOf ec env)).event_limit
        (EnvelopeLimiter.execute check (summaryOf ec env)).attachment_limit
        (EnvelopeLimiter.execute check (summaryOf ec env)).session_limit
        env.items).2 := rfl

/-! ## Closed forms of `EnvelopeSummary::compute` -/

/-- The event category of an item list: the first event-creating item whose
category can be inferred. -/
def inferListCategory (items : List Item) : Option DataCategory :=
  items.findSome? fun i => if i.creates_event then infer_event_category i else none

/-- The attachment quantity of an item list: total bytes (at least one per
item) of attachment items not yet rate limited. -/
def attachmentQuantityOf (items : List Item) : Nat :=
  (items.map fun i =>
    if i.rate_limited = false ∧ i.ty = .attachment then max i.len 1 else 0).sum

/-- The session quantity of an item list: the number of session items not yet
rate limited. -/
def sessionQuantityOf (items : List Item) : Nat :=
  (items.map fun i =>
    if i.rate_limited = false ∧ i.ty = .session then 1 else 0).sum

/-- Whether an item list contains a plain (non-event-creating) attachment. -/
def hasPlainAttachmentsOf (items : List Item) : Bool :=
  items.any fun i => i.ty == .attachment && ! i.creates_event

theorem infer_event_category_ne_default (i : Item) :
    infer_event_category i ≠ some .default := by
  unfold infer_event_category
  cases h : i.ty <;> simp

theorem infer_event_category_ne_attachment (i : Item) :
    infer_event_category i ≠ some .attachment := by
  unfold infer_event_category
  cases h : i.ty <;> simp

theorem infer_category_attachment_quantity (s : EnvelopeSummary) (i : Item) :
    (s.infer_category i).attachment_quantity = s.attachment_quantity := by
  unfold EnvelopeSummary.infer_category
  split
  · cases hi : infer_event_category i <;> simp
  · rfl

theorem infer_category_session_quantity (s : EnvelopeSummary) (i : Item) :
    (s.infer_category i).session_quantity = s.session_quantity := by
  unfold EnvelopeSummary.infer_category
  split
  · cases hi : infer_event_category i <;> simp
  · rfl

theorem infer_category_has_plain (s : EnvelopeSummary) (i : Item) :
    (s.infer_category i).has_plain_attachments = s.has_plain_attachments := by
  unfold EnvelopeSummary.infer_category
  split
  · cases hi : infer_event_category i <;> simp
  · rfl

theorem infer_category_event_id (s : EnvelopeSummary) (i : Item) :
    (s.infer_category i).event_id = s.event_id := by
  unfold EnvelopeSummary.infer_category
  split
  · cases hi : infer_event_category i <;> simp
  · rfl

theorem infer_category_remote_addr (s : EnvelopeSummary) (i : Item) :
    (s.infer_category i).remote_addr = s.remote_addr := by
  unfold EnvelopeSummary.infer_category
  split
  · cases hi : infer_event_category i <;> simp
  · rfl

theorem computeStep_event_category (s : EnvelopeSummary) (i : Item) :
    (EnvelopeSummary.computeStep s i).event_category =
      if i.creates_event then (s.infer_category i).event_category
      else s.event_category := by
  unfold EnvelopeSummary.computeStep
  cases hr : i.rate_limited <;> cases ht : i.ty <;> cases hc : i.creates_event <;>
    simp [hr, ht, hc]

theorem computeStep_attachment_quantity (s : EnvelopeSummary) (i : Item) :
    (EnvelopeSummary.computeStep s i).attachment_quantity =
      s.attachment_quantity +
        (if i.rate_limited = false ∧ i.ty = .attachment then max i.len 1 else 0) := by
  unfold EnvelopeSummary.computeStep
  cases hr : i.rate_limited <;> cases ht : i.ty <;> cases hc : i.creates_event <;>
    simp [hr, ht, hc, infer_category_attachment_quantity]

theorem computeStep_session_quantity (s : EnvelopeSummary) (i : Item) :
    (EnvelopeSummary.computeStep s i).session_quantity =
      s.session_quantity +
        (if i.rate_limited = false ∧ i.ty = .session then 1 else 0) := by
  unfold EnvelopeSummary.computeStep
  cases hr : i.rate_limited <;> cases ht : i.ty <;> cases hc : i.creates_event <;>
    simp [hr, ht, hc, infer_category_session_quantity]

theorem computeStep_has_plain (s : EnvelopeSummary) (i : Item) :
    (EnvelopeSummary.computeStep s i).has_plain_attachments =
      (s.has_plain_attachments || (i.ty == .attachment && ! i.creates_event)) := by
  unfold EnvelopeSummary.computeStep
  cases hr : i.rate_limited <;> cases ht : i.ty <;> cases hc : i.creates_event <;>
    simp [hr, ht, hc, infer_category_has_plain]

theorem computeStep_event_id (s : EnvelopeSummary) (i : Item) :
    (EnvelopeSummary.computeStep s i).event_id = s.event_id := by
  unfold EnvelopeSummary.computeStep
  cases hr : i.rate_limited <;> cases ht : i.ty <;> cases hc : i.creates_event <;>
    simp [hr, ht, hc, infer_category_event_id]

theorem computeStep_remote_addr (s : EnvelopeSummary) (i : Item) :
    (EnvelopeSummary.computeStep s i).remote_addr = s.remote_addr := by
  unfold EnvelopeSummary.computeStep
  cases hr : i.rate_limited <;> cases ht : i.ty <;> cases hc : i.creates_event <;>
    simp [hr, ht, hc, infer_category_remote_addr]

theorem infer_category_event_category (s : EnvelopeSummary) (i : Item) :
    (s.infer_category i).event_category =
      if s.event_category = none ∨ s.event_category = some .default then
        match infer_event_category i with
        | some c => some c
        | none => s.event_category
      else s.event_category := by
  unfold EnvelopeSummary.infer_category
  split
  · cases hi : infer_event_category i <;> simp [hi]
  · rfl

theorem foldl_computeStep_attachment_quantity (items : List Item)
    (s : EnvelopeSummary) :
    (items.foldl EnvelopeSummary.computeStep s).attachment_quantity =
      s.attachment_quantity + attachmentQuantityOf items := by
  induction items generalizing s with
  | nil => simp [attachmentQuantityOf]
  | cons i rest ih =>
    rw [List.foldl_cons, ih, computeStep_attachment_quantity]
    simp only [attachmentQuantityOf, List.map_cons, List.sum_cons]
    omega

theorem foldl_computeStep_session_quantity (items : List Item)
    (s : EnvelopeSummary) :
    (items.foldl EnvelopeSummary.computeStep s).session_quantity =
      s.session_quantity + sessionQuantityOf items := by
  induction items generalizing s with
  | nil => simp [sessionQuantityOf]
  | cons i rest ih =>
    rw [List.foldl_cons, ih, computeStep_session_quantity]
    simp only [sessionQuantityOf, List.map_cons, List.sum_cons]
    omega

theorem foldl_computeStep_has_plain (items : List Item) (s : EnvelopeSummary) :
    (items.foldl EnvelopeSummary.computeStep s).has_plain_attachments =
      (s.has_plain_attachments || hasPlainAttachmentsOf items) := by
  induction items generalizing s with
  | nil => simp [hasPlainAttachmentsOf]
  | cons i rest ih =>
    rw [List.foldl_cons, ih, computeStep_has_plain]
    simp only [hasPlainAttachmentsOf, List.any_cons]
    rw [Bool.or_assoc]

theorem foldl_computeStep_event_id (items : List Item) (s : EnvelopeSummary) :
    (items.foldl EnvelopeSummary.computeStep s).event_id = s.event_id := by
  induction items generalizing s with
  | nil => rfl
  | cons i rest ih => rw [List.foldl_cons, ih, computeStep_event_id]

theorem foldl_computeStep_remote_addr (items : List Item) (s : EnvelopeSummary) :
    (items.foldl EnvelopeSummary.computeStep s).remote_addr = s.remote_addr := by
  induction items generalizing s with
  | nil => rfl
  | cons i rest ih => rw [List.foldl_cons, ih, computeStep_remote_addr]

theorem foldl_computeStep_event_category (items : List Item) (s : EnvelopeSummary)
    (hs : s.event_category ≠ some .default) :
    (items.foldl EnvelopeSummary.computeStep s).event_category =
      match s.event_category with
      | none => inferListCategory items
      | some c => some c := by
  induction items generalizing s with
  | nil => cases h : s.event_category <;> simp [inferListCategory, h]
  | cons i rest ih =>
    rw [List.foldl_cons]
    cases hcat : s.event_category with
    | none =>
      cases hc : i.creates_event
      case false =>
        have hstep : (EnvelopeSummary.computeStep s i).event_category = none := by
          rw [computeStep_event_category, hc, if_neg (by simp), hcat]
        rw [ih _ (by rw [hstep]; simp), hstep]
        simp [inferListCategory, hc]
      case true =>
        cases hi : infer_event_category i with
        | some c =>
          have hstep : (EnvelopeSummary.computeStep s i).event_category = some c := by
            rw [computeStep_event_category, hc, if_pos rfl,
              infer_category_event_category, hcat, hi]
            simp
          have hcne : c ≠ .default := by
            intro hcd
            exact infer_event_category_ne_default i (hcd ▸ hi)
          rw [ih _ (by rw [hstep]; simp [hcne]), hstep]
          simp [inferListCategory, hc, hi]
        | none =>
          have hstep : (EnvelopeSummary.computeStep s i).event_category = none := by
            rw [computeStep_event_category, hc, if_pos rfl,
              infer_category_event_category, hcat, hi]
            simp
          rw [ih _ (by rw [hstep]; simp), hstep]
          simp [inferListCategory, hc, hi]
    | some c =>
      have hcne : c ≠ .default := by
        intro hcd
        exact hs (by rw [hcat, hcd])
      have hstep : (EnvelopeSummary.computeStep s i).event_category = some c := by
        rw [computeStep_event_category]
        cases hc : i.creates_event
        · simp [hcat]
        · rw [if_pos rfl, infer_category_event_category, hcat]
          simp [hcne]
      rw [ih _ (by rw [hstep]; simp [hcne]), hstep]

theorem compute_event_category (env : Envelope) :
    (EnvelopeSummary.compute env).event_category = inferListCategory env.items := by
  unfold EnvelopeSummary.compute
  rw [foldl_computeStep_event_category _ _ (by simp [EnvelopeSummary.empty])]
  simp [EnvelopeSummary.empty]

theorem compute_attachment_quantity (env : Envelope) :
    (EnvelopeSummary.compute env).attachment_quantity =
      attachmentQuantityOf env.items := by
  unfold EnvelopeSummary.compute
  rw [foldl_computeStep_attachment_quantity]
  simp [EnvelopeSummary.empty]

theorem compute_session_quantity (env : Envelope) :
    (EnvelopeSummary.compute env).session_quantity = sessionQuantityOf env.items := by
  unfold EnvelopeSummary.compute
  rw [foldl_computeStep_session_quantity]
  simp [EnvelopeSummary.empty]

theorem compute_has_plain (env : Envelope) :
    (EnvelopeSummary.compute env).has_plain_attachments =
      hasPlainAttachmentsOf env.items := by
  unfold EnvelopeSummary.compute
  rw [foldl_computeStep_has_plain]
  simp [EnvelopeSummary.empty]

theorem compute_event_id (env : Envelope) :
    (EnvelopeSummary.compute env).event_id = env.event_id := by
  unfold EnvelopeSummary.compute
  rw [foldl_computeStep_event_id]
  simp [EnvelopeSummary.empty]

theorem compute_remote_addr (env : Envelope) :
    (EnvelopeSummary.compute env).remote_addr = env.remote_addr := by
  unfold EnvelopeSummary.compute
  rw [foldl_computeStep_remote_addr]
  simp [EnvelopeSummary.empty]

theorem infer_event_category_cases (i : Item) (c : DataCategory)
    (h : infer_event_category i = some c) :
    c = .error ∨ c = .transaction ∨ c = .security := by
  unfold infer_event_category at h
  cases ht : i.ty <;> rw [ht] at h <;> simp_all

theorem inferListCategory_cases (items : List Item) (c : DataCategory)
    (h : inferListCategory items = some c) :
    c = .error ∨ c = .transaction ∨ c = .security := by
  obtain ⟨i, _, hi⟩ := List.exists_of_findSome?_eq_some h
  split at hi
  · exact infer_event_category_cases i c hi
  · simp at hi

/-- Claim C3: during `EnvelopeLimiter::enforce` (of a limiter built with
`new`, without an assumed event category) the `check` callback is invoked for
the `Attachment` data category if and only if no active event limit was
returned in step one and the summary's `attachment_quantity` is positive —
and then exactly once, with that quantity; and the attachment limits so
obtained are merged into the returned `RateLimits` exactly when the envelope
contains at least one plain (non-event-creating) attachment, the third
conjunct writing the returned limits as the event limits, then the attachment
limits only under that condition, then the session limits. -/
theorem c3_attachment_check_and_merge (check : DataCategory → Nat → List RateLimit)
    (env : Envelope) :
    ((∃ q, (DataCategory.attachment, q) ∈ (EnvelopeLimiter.enforce check none env).calls) ↔
      ((EnvelopeLimiter.enforce check none env).event_limit = none ∧
        0 < (EnvelopeLimiter.enforce check none env).summary.attachment_quantity)) ∧
    (∀ q, (DataCategory.attachment, q) ∈ (EnvelopeLimiter.enforce check none env).calls →
      q = (EnvelopeLimiter.enforce check none env).summary.attachment_quantity) ∧
    ((EnvelopeLimiter.enforce check none env).rate_limits =
      RateLimits.merge
        (RateLimits.merge
          (match (EnvelopeLimiter.enforce check none env).summary.event_category with
           | some category => RateLimits.merge [] (check category 1)
           | none => [])
          (if (EnvelopeLimiter.enforce check none env).event_limit = none ∧
              0 < (EnvelopeLimiter.enforce check none env).summary.attachment_quantity ∧
              (EnvelopeLimiter.enforce check none env).summary.has_plain_attachments = true then
            check .attachment (EnvelopeLimiter.enforce check none env).summary.attachment_quantity
           else []))
        (if 0 < (EnvelopeLimiter.enforce check none env).summary.session_quantity then
          check .session (EnvelopeLimiter.enforce check none env).summary.session_quantity
         else [])) := by
  have hsum : summaryOf none env = EnvelopeSummary.compute env := rfl
  have hcat : (summaryOf none env).event_category = inferListCategory env.items := by
    rw [hsum, compute_event_category]
  rw [enforce_calls, enforce_event_limit, enforce_summary, enforce_rate_limits,
    execute_calls, execute_event_limit, execute_rate_limits]
  refine ⟨?_, ?_, rfl⟩
  · constructor
    · rintro ⟨q, hq⟩
      simp only [List.mem_append] at hq
      rcases hq with (hq | hq) | hq
      · exfalso
        cases h : (summaryOf none env).event_category <;> rw [h] at hq <;> simp at hq
        rcases inferListCategory_cases env.items _ (hcat ▸ h) with h1 | h1 | h1 <;>
          rw [h1] at hq <;> exact absurd hq.1 (by simp)
      · split at hq
        · rename_i hcond
          exact hcond
        · simp at hq
      · split at hq <;> simp at hq
    · rintro ⟨h1, h2⟩
      refine ⟨(summaryOf none env).attachment_quantity, ?_⟩
      simp only [List.mem_append]
      left; right
      rw [if_pos ⟨h1, h2⟩]
      simp
  · intro q hq
    simp only [List.mem_append] at hq
    rcases hq with (hq | hq) | hq
    · exfalso
      cases h : (summaryOf none env).event_category <;> rw [h] at hq <;> simp at hq
      rcases inferListCategory_cases env.items _ (hcat ▸ h) with h1 | h1 | h1 <;>
        rw [h1] at hq <;> exact absurd hq.1 (by simp)
    · split at hq
      · simp only [List.mem_singleton, Prod.mk.injEq] at hq
        exact hq.2
      · simp at hq
    · split at hq <;> simp at hq

/-! ## Concrete fixtures for witnesses and counterexamples -/

/-- A minidump attachment item (creates an event). -/
def minidumpItem : Item :=
  { ty := .attachment, attachment_type := some .minidump, len := 10
    rate_limited := false }

/-- A plain attachment item. -/
def plainAttachmentItem : Item :=
  { ty := .attachment, attachment_type := none, len := 10, rate_limited := false }

/-- A session item. -/
def sessionItem : Item :=
  { ty := .session, attachment_type := none, len := 10, rate_limited := false }

/-- An event item. -/
def eventItem : Item :=
  { ty := .event, attachment_type := none, len := 10, rate_limited := false }

/-- An organization-scoped rate limit on one category. -/
def limitOn (category : DataCategory) : RateLimit :=
  { categories := [category], scope := .organization 42, reason_code := none
    retry_after := 60 }

/-- A check callback denying exactly one category. -/
def denyCheck (denied : DataCategory) : DataCategory → Nat → List RateLimit :=
  fun category _ => if category = denied then [limitOn category] else []

/-- An envelope with the given items and no header data. -/
def envelopeOf (items : List Item) : Envelope :=
  { event_id := none, remote_addr := none, items := items }

theorem item_set_rate_limited_self (i : Item) (h : i.rate_limited = true) :
    { i with rate_limited := true } = i := by
  cases i
  simp_all

/-- Claim C4: if an active attachment limit fired during enforcement, then
among the attachment items of the envelope the non-event-creating ones are
removed while the event-creating ones (e.g. minidumps) are retained with
their `rate_limited` flag set; non-attachment items are untouched except for
sessions under a session limit. -/
theorem c4_attachment_limit_retention (check : DataCategory → Nat → List RateLimit)
    (ec : Option DataCategory) (env : Envelope) (l : RateLimit)
    (h : (EnvelopeLimiter.enforce check ec env).attachment_limit = some l) :
    (EnvelopeLimiter.enforce check ec env).envelope.items =
      env.items.filterMap fun i =>
        if i.ty = .attachment then
          (if i.creates_event then some { i with rate_limited := true } else none)
        else if (EnvelopeLimiter.enforce check ec env).session_limit.isSome ∧
            i.ty = .session then none
        else some i := by
  have heL : (EnvelopeLimiter.enforce check ec env).event_limit = none := by
    rw [enforce_attachment_limit, execute_attachment_limit] at h
    rw [enforce_event_limit, execute_event_limit]
    by_contra hne
    rw [if_neg (fun hc => hne hc.1)] at h
    exact Option.noConfusion h
  rw [enforce_envelope, apply_retention_fst]
  rw [enforce_attachment_limit] at h
  rw [enforce_event_limit] at heL
  rw [enforce_session_limit]
  apply List.filterMap_congr
  intro i _
  rw [heL, h]
  by_cases ht : i.ty = .attachment
  · have htb : (i.ty == ItemType.attachment) = true := by simp [ht]
    by_cases hc : i.creates_event = true
    · by_cases hr : i.rate_limited = true
      · simp only [retain_item, htb, hc, hr, if_pos, ht]
        obtain ⟨t, a, ln, r⟩ := i
        simp_all
      · simp only [retain_item, htb, hc, hr, ht]
        simp [hc]
    · simp only [retain_item, htb, ht]
      simp [hc]
  · have htb : (i.ty == ItemType.attachment) = false := by simp [ht]
    by_cases hs : (EnvelopeLimiter.execute check (summaryOf ec env)).session_limit.isSome
    · obtain ⟨sl, hsl⟩ := Option.isSome_iff_exists.mp hs
      by_cases hts : i.ty = .session
      · have htsb : (i.ty == ItemType.session) = true := by simp [hts]
        simp only [retain_item, htb, htsb, hsl]
        simp [ht, hts, hs]
      · have htsb : (i.ty == ItemType.session) = false := by simp [hts]
        simp only [retain_item, htb, htsb, hsl]
        simp [ht, hts]
    · have hsl : (EnvelopeLimiter.execute check (summaryOf ec env)).session_limit = none := by
        simpa using hs
      simp only [retain_item, htb, hsl]
      cases htsb : (i.ty == ItemType.session) <;> simp [ht, hs]

/-- Witness for C4 at a concrete envelope: a minidump plus a plain
attachment under an attachment quota denial — the plain attachment is
removed, the minidump retained and flagged. -/
theorem c4_attachment_limit_retention_witness :
    (EnvelopeLimiter.enforce (denyCheck .attachment) none
        (envelopeOf [minidumpItem, plainAttachmentItem])).envelope.items =
      [{ minidumpItem with rate_limited := true }] := by
  rw [c4_attachment_limit_retention (denyCheck .attachment) none
    (envelopeOf [minidumpItem, plainAttachmentItem]) (limitOn .attachment) (by decide)]
  decide

/-- Counterexample to claim C2 as stated: an envelope with a single plain
attachment under an attachment quota denial has that item removed by
`enforce`, yet `limited_items` records no `(category, applied_limit)` pair at
all (plain attachments have no inferable event category), so no rate-limited
outcome is emitted for the removed item. -/
theorem c2_counterexample_no_pair_for_removed_attachment :
    (EnvelopeLimiter.enforce (denyCheck .attachment) none
        (envelopeOf [plainAttachmentItem])).envelope.items = [] ∧
    (envelopeOf [plainAttachmentItem]).items.length = 1 ∧
    (EnvelopeLimiter.enforce (denyCheck .attachment) none
        (envelopeOf [plainAttachmentItem])).limited_items = [] ∧
    (EnvelopeLimiter.enforce (denyCheck .attachment) none
        (envelopeOf [plainAttachmentItem])).emit_outcomes
        { organization_id := 42, project_id := 21, key_id := none, public_key := 7 } = [] := by
  refine ⟨?_, ?_, ?_, ?_⟩ <;> decide

/-- Claim C2 as amended: `enforce` records one `(applied_limit, category)`
pair for each item whose retention carried an applied limit *and* whose
inferred event category is defined — that is, for removed event-producing
items and for event-creating attachments newly flagged as rate limited, but
*not* for removed plain attachments or sessions; `emit_outcomes` then emits
exactly one rate-limited outcome per recorded pair, carrying the envelope's
event id and remote address and the pair's category, and since an inferred
category is never `Attachment`, every emitted outcome has quantity 1. -/
theorem c2_amended_pairs_and_outcomes (check : DataCategory → Nat → List RateLimit)
    (ec : Option DataCategory) (env : Envelope) (scoping : Scoping) :
    ((EnvelopeLimiter.enforce check ec env).limited_items =
      env.items.filterMap fun i =>
        match (retain_item (EnvelopeLimiter.enforce check ec env).event_limit
                (EnvelopeLimiter.enforce check ec env).attachment_limit
                (EnvelopeLimiter.enforce check ec env).session_limit i).applied_limit,
              infer_event_category i with
        | some l, some c => some (l, c)
        | _, _ => none) ∧
    (∀ p ∈ (EnvelopeLimiter.enforce check ec env).limited_items,
      p.2 ≠ DataCategory.attachment) ∧
    ((EnvelopeLimiter.enforce check ec env).emit_outcomes scoping =
      (EnvelopeLimiter.enforce check ec env).limited_items.map fun p =>
        { scoping := scoping
          reason_code := p.1.reason_code
          event_id := (EnvelopeLimiter.enforce check ec env).summary.event_id
          remote_addr := (EnvelopeLimiter.enforce check ec env).summary.remote_addr
          category := p.2
          quantity := 1 }) ∧
    ((EnvelopeLimiter.enforce check ec env).emit_outcomes scoping).length =
      (EnvelopeLimiter.enforce check ec env).limited_items.length := by
  have hpairs : (EnvelopeLimiter.enforce check ec env).limited_items =
      env.items.filterMap fun i =>
        match (retain_item (EnvelopeLimiter.enforce check ec env).event_limit
                (EnvelopeLimiter.enforce check ec env).attachment_limit
                (EnvelopeLimiter.enforce check ec env).session_limit i).applied_limit,
              infer_event_category i with
        | some l, some c => some (l, c)
        | _, _ => none := by
    rw [enforce_limited_items, apply_retention_snd]
    rfl
  have hne : ∀ p ∈ (EnvelopeLimiter.enforce check ec env).limited_items,
      p.2 ≠ DataCategory.attachment := by
    intro p hp
    rw [hpairs] at hp
    obtain ⟨i, _, hi⟩ := List.mem_filterMap.mp hp
    revert hi
    cases hl : (retain_item (EnvelopeLimiter.enforce check ec env).event_limit
        (EnvelopeLimiter.enforce check ec env).attachment_limit
        (EnvelopeLimiter.enforce check ec env).session_limit i).applied_limit <;>
      cases hc : infer_event_category i <;> intro hi <;> simp at hi
    rw [← hi]
    intro hcontra
    exact infer_event_category_ne_attachment i
      (by rw [hc]; exact congrArg some hcontra)
  refine ⟨hpairs, hne, ?_, ?_⟩
  · unfold Enforcement.emit_outcomes
    apply List.map_congr_left
    intro p hp
    have := hne p hp
    cases hcat : p.2 <;> simp_all
  · unfold Enforcement.emit_outcomes
    rw [List.length_map]

/-- Witness for C2 (amended) at the minidump-plus-plain-attachment envelope:
exactly one pair is recorded (the newly flagged minidump, category `Error`)
and one outcome of quantity 1 is emitted, although two attachment items were
affected. -/
theorem c2_amended_pairs_and_outcomes_witness :
    (EnvelopeLimiter.enforce (denyCheck .attachment) none
        (envelopeOf [minidumpItem, plainAttachmentItem])).limited_items =
      [(limitOn .attachment, DataCategory.error)] ∧
    ((EnvelopeLimiter.enforce (denyCheck .attachment) none
        (envelopeOf [minidumpItem, plainAttachmentItem])).emit_outcomes
        { organization_id := 42, project_id := 21, key_id := none, public_key := 7 }).length = 1 := by
  have h := c2_amended_pairs_and_outcomes (denyCheck .attachment) none
    (envelopeOf [minidumpItem, plainAttachmentItem])
    { organization_id := 42, project_id := 21, key_id := none, public_key := 7 }
  refine ⟨?_, ?_⟩
  · rw [h.1]
    decide
  · rw [h.2.2.2, h.1]
    decide

/-- Witness for C3 at a concrete envelope: a single plain attachment with no
event item makes step one record no event limit, so the attachment check runs
with the attachment quantity. -/
theorem c3_attachment_check_and_merge_witness :
    ∃ q, (DataCategory.attachment, q) ∈
      (EnvelopeLimiter.enforce (denyCheck .attachment) none
        (envelopeOf [plainAttachmentItem])).calls :=
  (c3_attachment_check_and_merge (denyCheck .attachment)
    (envelopeOf [plainAttachmentItem])).1.mpr ⟨by decide, by decide⟩

/-! ## Idempotence of enforcement (claim C5) -/

theorem creates_event_requires_event (i : Item) (h : i.creates_event = true) :
    i.requires_event = true := by
  unfold Item.creates_event at h
  unfold Item.requires_event
  cases ht : i.ty <;> simp_all

theorem attachment_requires_event (i : Item) (h : i.ty = .attachment) :
    i.requires_event = true := by
  unfold Item.requires_event
  rw [h]

theorem flagged_ty (i : Item) : (({ i with rate_limited := true } : Item)).ty = i.ty := rfl

theorem flagged_creates_event (i : Item) :
    (({ i with rate_limited := true } : Item)).creates_event = i.creates_event := rfl

theorem flagged_infer (i : Item) :
    infer_event_category { i with rate_limited := true } = infer_event_category i := rfl

theorem apply_retention_none (items : List Item) :
    apply_retention none none none items = (items, []) := by
  induction items with
  | nil => rfl
  | cons i rest ih =>
    simp only [apply_retention, ih]
    have hr : retain_item none none none i =
        { applied_limit := none, retain_in_envelope := true, item := i } := by
      unfold retain_item
      cases hta : i.ty == ItemType.attachment <;>
        cases hts : i.ty == ItemType.session <;> simp [hta, hts]
    rw [hr]
    simp

/-- `retain_item` with no event limit in force, written as a decision tree.
(When the attachment limit fired during `execute`, the event limit is
necessarily `none`.) -/
theorem retain_item_no_event (aL sL : Option RateLimit) (i : Item) :
    retain_item none aL sL i =
      if aL.isSome ∧ i.ty = .attachment then
        (if i.creates_event then
          (if i.rate_limited then
            { applied_limit := none, retain_in_envelope := true, item := i }
          else
            { applied_limit := aL, retain_in_envelope := true
              item := { i with rate_limited := true } })
        else { applied_limit := aL, retain_in_envelope := false, item := i })
      else if sL.isSome ∧ i.ty = .session then
        { applied_limit := sL, retain_in_envelope := false, item := i }
      else { applied_limit := none, retain_in_envelope := true, item := i } := by
  unfold retain_item
  cases aL <;> cases sL <;>
    cases hta : i.ty == ItemType.attachment <;>
    cases hts : i.ty == ItemType.session <;>
    cases hc : i.creates_event <;>
    cases hr : i.rate_limited <;>
    simp_all

/-- `retain_item` with an event limit in force. -/
theorem retain_item_with_event (e : RateLimit) (aL sL : Option RateLimit) (i : Item) :
    retain_item (some e) aL sL i =
      if i.requires_event then
        { applied_limit := some e, retain_in_envelope := false, item := i }
      else if sL.isSome ∧ i.ty = .session then
        { applied_limit := sL, retain_in_envelope := false, item := i }
      else { applied_limit := none, retain_in_envelope := true, item := i } := by
  unfold retain_item
  have hta : i.ty = .attachment → i.requires_event = true := attachment_requires_event i
  cases sL <;>
    cases hreq : i.requires_event <;>
    cases htab : i.ty == ItemType.attachment <;>
    cases hts : i.ty == ItemType.session <;>
    cases aL <;>
    simp_all

theorem session_not_creates (i : Item) (h : i.ty = .session) :
    i.creates_event = false := by
  unfold Item.creates_event
  rw [h]

theorem inferListCategory_cons (i : Item) (rest : List Item) :
    inferListCategory (i :: rest) =
      match (if i.creates_event then infer_event_category i else none) with
      | some c => some c
      | none => inferListCategory rest := by
  simp only [inferListCategory, List.findSome?_cons]
  cases (if i.creates_event = true then infer_event_category i else none) <;> rfl

theorem attachmentQuantityOf_cons (i : Item) (rest : List Item) :
    attachmentQuantityOf (i :: rest) =
      (if i.rate_limited = false ∧ i.ty = .attachment then max i.len 1 else 0) +
        attachmentQuantityOf rest := by
  simp [attachmentQuantityOf]

theorem sessionQuantityOf_cons (i : Item) (rest : List Item) :
    sessionQuantityOf (i :: rest) =
      (if i.rate_limited = false ∧ i.ty = .session then 1 else 0) +
        sessionQuantityOf rest := by
  simp [sessionQuantityOf]

theorem apply_retention_cons (eL aL sL : Option RateLimit) (i : Item)
    (rest : List Item) :
    apply_retention eL aL sL (i :: rest) =
      ((if (retain_item eL aL sL i).retain_in_envelope then
          (retain_item eL aL sL i).item :: (apply_retention eL aL sL rest).1
        else (apply_retention eL aL sL rest).1),
       (match (retain_item eL aL sL i).applied_limit, infer_event_category i with
        | some l, some c => (l, c) :: (apply_retention eL aL sL rest).2
        | _, _ => (apply_retention eL aL sL rest).2)) := by
  rcases h : apply_retention eL aL sL rest with ⟨restItems, restPairs⟩
  simp [apply_retention, h]

/-- With no event limit, retention preserves the inferred event category:
event-creating items are always retained (attachments among them merely get
flagged, which the category inference ignores). -/
theorem inferListCategory_retained_no_event (aL sL : Option RateLimit)
    (items : List Item) :
    inferListCategory ((apply_retention none aL sL items).1) =
      inferListCategory items := by
  induction items with
  | nil => rfl
  | cons i rest ih =>
    by_cases ha : aL.isSome ∧ i.ty = .attachment
    · by_cases hc : i.creates_event = true
      · by_cases hr : i.rate_limited = true
        · have hri : retain_item none aL sL i =
              { applied_limit := none, retain_in_envelope := true, item := i } := by
            rw [retain_item_no_event, if_pos ha, if_pos hc, if_pos hr]
          simp [apply_retention_cons, hri, inferListCategory_cons, ih]
        · have hri : retain_item none aL sL i =
              { applied_limit := aL, retain_in_envelope := true
                item := { i with rate_limited := true } } := by
            rw [retain_item_no_event, if_pos ha, if_pos hc, if_neg hr]
          simp [apply_retention_cons, hri, inferListCategory_cons, ih,
            flagged_creates_event, flagged_infer]
      · have hri : retain_item none aL sL i =
            { applied_limit := aL, retain_in_envelope := false, item := i } := by
          rw [retain_item_no_event, if_pos ha, if_neg hc]
        simp [apply_retention_cons, hri, inferListCategory_cons, ih, hc]
    · by_cases hs : sL.isSome ∧ i.ty = .session
      · have hri : retain_item none aL sL i =
            { applied_limit := sL, retain_in_envelope := false, item := i } := by
          rw [retain_item_no_event, if_neg ha, if_pos hs]
        simp [apply_retention_cons, hri, inferListCategory_cons, ih,
          session_not_creates i hs.2]
      · have hri : retain_item none aL sL i =
            { applied_limit := none, retain_in_envelope := true, item := i } := by
          rw [retain_item_no_event, if_neg ha, if_neg hs]
        simp [apply_retention_cons, hri, inferListCategory_cons, ih]

/-- If the attachment limit fired (and no event limit), the retained items
carry no attachment quantity: plain attachments are removed and crash-report
attachments are flagged. -/
theorem attachmentQuantityOf_retained_attachment_limit (a : RateLimit)
    (sL : Option RateLimit) (items : List Item) :
    attachmentQuantityOf ((apply_retention none (some a) sL items).1) = 0 := by
  induction items with
  | nil => rfl
  | cons i rest ih =>
    by_cases ht : i.ty = .attachment
    · by_cases hc : i.creates_event = true
      · by_cases hr : i.rate_limited = true
        · have hri : retain_item none (some a) sL i =
              { applied_limit := none, retain_in_envelope := true, item := i } := by
            rw [retain_item_no_event, if_pos ⟨rfl, ht⟩, if_pos hc, if_pos hr]
          simp [apply_retention_cons, hri, attachmentQuantityOf_cons, ih, hr]
        · have hri : retain_item none (some a) sL i =
              { applied_limit := some a, retain_in_envelope := true
                item := { i with rate_limited := true } } := by
            rw [retain_item_no_event, if_pos ⟨rfl, ht⟩, if_pos hc, if_neg hr]
          simp [apply_retention_cons, hri, attachmentQuantityOf_cons, ih]
      · have hri : retain_item none (some a) sL i =
            { applied_limit := some a, retain_in_envelope := false, item := i } := by
          rw [retain_item_no_event, if_pos ⟨rfl, ht⟩, if_neg hc]
        simp [apply_retention_cons, hri, ih]
    · by_cases hs : sL.isSome ∧ i.ty = .session
      · have hri : retain_item none (some a) sL i =
            { applied_limit := sL, retain_in_envelope := false, item := i } := by
          rw [retain_item_no_event, if_neg (fun hcon => ht hcon.2), if_pos hs]
        simp [apply_retention_cons, hri, ih]
      · have hri : retain_item none (some a) sL i =
            { applied_limit := none, retain_in_envelope := true, item := i } := by
          rw [retain_item_no_event, if_neg (fun hcon => ht hcon.2), if_neg hs]
        simp [apply_retention_cons, hri, attachmentQuantityOf_cons, ih, ht]

/-- With neither an event nor an attachment limit, retention leaves the
attachment quantity unchanged (only sessions can be removed). -/
theorem attachmentQuantityOf_retained_no_attachment_limit (sL : Option RateLimit)
    (items : List Item) :
    attachmentQuantityOf ((apply_retention none none sL items).1) =
      attachmentQuantityOf items := by
  induction items with
  | nil => rfl
  | cons i rest ih =>
    by_cases hs : sL.isSome ∧ i.ty = .session
    · have hri : retain_item none none sL i =
          { applied_limit := sL, retain_in_envelope := false, item := i } := by
        rw [retain_item_no_event, if_neg (by simp), if_pos hs]
      simp [apply_retention_cons, hri, attachmentQuantityOf_cons, ih, hs.2]
    · have hri : retain_item none none sL i =
          { applied_limit := none, retain_in_envelope := true, item := i } := by
        rw [retain_item_no_event, if_neg (by simp), if_neg hs]
      simp [apply_retention_cons, hri, attachmentQuantityOf_cons, ih]

/-- If the session limit fired, no session quantity survives retention
(with no event limit in force). -/
theorem sessionQuantityOf_retained_session_limit_no_event (aL : Option RateLimit)
    (s0 : RateLimit) (items : List Item) :
    sessionQuantityOf ((apply_retention none aL (some s0) items).1) = 0 := by
  induction items with
  | nil => rfl
  | cons i rest ih =>
    by_cases ha : aL.isSome ∧ i.ty = .attachment
    · by_cases hc : i.creates_event = true
      · by_cases hr : i.rate_limited = true
        · have hri : retain_item none aL (some s0) i =
              { applied_limit := none, retain_in_envelope := true, item := i } := by
            rw [retain_item_no_event, if_pos ha, if_pos hc, if_pos hr]
          simp [apply_retention_cons, hri, sessionQuantityOf_cons, ih, ha.2]
        · have hri : retain_item none aL (some s0) i =
              { applied_limit := aL, retain_in_envelope := true
                item := { i with rate_limited := true } } := by
            rw [retain_item_no_event, if_pos ha, if_pos hc, if_neg hr]
          simp [apply_retention_cons, hri, sessionQuantityOf_cons, ih]
      · have hri : retain_item none aL (some s0) i =
            { applied_limit := aL, retain_in_envelope := false, item := i } := by
          rw [retain_item_no_event, if_pos ha, if_neg hc]
        simp [apply_retention_cons, hri, ih]
    · by_cases hts : i.ty = .session
      · have hri : retain_item none aL (some s0) i =
            { applied_limit := some s0, retain_in_envelope := false, item := i } := by
          rw [retain_item_no_event, if_neg ha, if_pos ⟨rfl, hts⟩]
        simp [apply_retention_cons, hri, ih]
      · have hri : retain_item none aL (some s0) i =
            { applied_limit := none, retain_in_envelope := true, item := i } := by
          rw [retain_item_no_event, if_neg ha, if_neg (fun hcon => hts hcon.2)]
        simp [apply_retention_cons, hri, sessionQuantityOf_cons, ih, hts]

/-- With no session limit (and no event limit), retention leaves the session
quantity unchanged. -/
theorem sessionQuantityOf_retained_no_session_limit_no_event (aL : Option RateLimit)
    (items : List Item) :
    sessionQuantityOf ((apply_retention none aL none items).1) =
      sessionQuantityOf items := by
  induction items with
  | nil => rfl
  | cons i rest ih =>
    by_cases ha : aL.isSome ∧ i.ty = .attachment
    · by_cases hc : i.creates_event = true
      · by_cases hr : i.rate_limited = true
        · have hri : retain_item none aL none i =
              { applied_limit := none, retain_in_envelope := true, item := i } := by
            rw [retain_item_no_event, if_pos ha, if_pos hc, if_pos hr]
          simp [apply_retention_cons, hri, sessionQuantityOf_cons, ih]
        · have hri : retain_item none aL none i =
              { applied_limit := aL, retain_in_envelope := true
                item := { i with rate_limited := true } } := by
            rw [retain_item_no_event, if_pos ha, if_pos hc, if_neg hr]
          simp [apply_retention_cons, hri, sessionQuantityOf_cons, ih, ha.2]
      · have hri : retain_item none aL none i =
            { applied_limit := aL, retain_in_envelope := false, item := i } := by
          rw [retain_item_no_event, if_pos ha, if_neg hc]
        simp [apply_retention_cons, hri, sessionQuantityOf_cons, ih, ha.2]
    · have hri : retain_item none aL none i =
          { applied_limit := none, retain_in_envelope := true, item := i } := by
        rw [retain_item_no_event, if_neg ha, if_neg (by simp)]
      simp [apply_retention_cons, hri, sessionQuantityOf_cons, ih]

/-- When the event limit fired, every retained item is independent of the
event (all `requires_event` items, attachments included, are removed). -/
theorem retained_with_event_not_requires (e : RateLimit) (aL sL : Option RateLimit)
    (items : List Item) :
    ∀ i ∈ (apply_retention (some e) aL sL items).1, i.requires_event = false := by
  induction items with
  | nil => intro i hi; simp [apply_retention] at hi
  | cons i rest ih =>
    by_cases hreq : i.requires_event = true
    · have hri : retain_item (some e) aL sL i =
          { applied_limit := some e, retain_in_envelope := false, item := i } := by
        rw [retain_item_with_event, if_pos hreq]
      intro j hj
      rw [apply_retention_cons, hri] at hj
      simp at hj
      exact ih j hj
    · by_cases hs : sL.isSome ∧ i.ty = .session
      · have hri : retain_item (some e) aL sL i =
            { applied_limit := sL, retain_in_envelope := false, item := i } := by
          rw [retain_item_with_event, if_neg hreq, if_pos hs]
        intro j hj
        rw [apply_retention_cons, hri] at hj
        simp at hj
        exact ih j hj
      · have hri : retain_item (some e) aL sL i =
            { applied_limit := none, retain_in_envelope := true, item := i } := by
          rw [retain_item_with_event, if_neg hreq, if_neg hs]
        intro j hj
        rw [apply_retention_cons, hri] at hj
        simp at hj
        rcases hj with hj | hj
        · rw [hj]
          simpa using hreq
        · exact ih j hj

theorem attachmentQuantityOf_of_not_requires (items : List Item)
    (h : ∀ i ∈ items, i.requires_event = false) :
    attachmentQuantityOf items = 0 := by
  induction items with
  | nil => rfl
  | cons i rest ih =>
    rw [attachmentQuantityOf_cons, ih (fun j hj => h j (List.mem_cons_of_mem i hj))]
    have hne : ¬ (i.rate_limited = false ∧ i.ty = .attachment) := by
      rintro ⟨-, ht⟩
      have := attachment_requires_event i ht
      rw [h i (List.mem_cons_self i rest)] at this
      exact Bool.noConfusion this
    rw [if_neg hne]

theorem inferListCategory_of_not_requires (items : List Item)
    (h : ∀ i ∈ items, i.requires_event = false) :
    inferListCategory items = none := by
  induction items with
  | nil => rfl
  | cons i rest ih =>
    rw [inferListCategory_cons]
    have hnc : i.creates_event = false := by
      cases hcr : i.creates_event
      · rfl
      · have := creates_event_requires_event i hcr
        rw [h i (List.mem_cons_self i rest)] at this
        exact Bool.noConfusion this
    rw [hnc]
    simpa using ih fun j hj => h j (List.mem_cons_of_mem i hj)

/-- If the session limit fired, no session quantity survives retention (with
an event limit in force). -/
theorem sessionQuantityOf_retained_session_limit_with_event (e : RateLimit)
    (aL : Option RateLimit) (s0 : RateLimit) (items : List Item) :
    sessionQuantityOf ((apply_retention (some e) aL (some s0) items).1) = 0 := by
  induction items with
  | nil => rfl
  | cons i rest ih =>
    by_cases hreq : i.requires_event = true
    · have hri : retain_item (some e) aL (some s0) i =
          { applied_limit := some e, retain_in_envelope := false, item := i } := by
        rw [retain_item_with_event, if_pos hreq]
      simp [apply_retention_cons, hri, ih]
    · by_cases hts : i.ty = .session
      · have hri : retain_item (some e) aL (some s0) i =
            { applied_limit := some s0, retain_in_envelope := false, item := i } := by
          rw [retain_item_with_event, if_neg hreq, if_pos ⟨rfl, hts⟩]
        simp [apply_retention_cons, hri, ih]
      · have hri : retain_item (some e) aL (some s0) i =
            { applied_limit := none, retain_in_envelope := true, item := i } := by
          rw [retain_item_with_event, if_neg hreq, if_neg (fun hcon => hts hcon.2)]
        simp [apply_retention_cons, hri, sessionQuantityOf_cons, ih, hts]

/-- With no session limit, retention under an event limit leaves the session
quantity unchanged (sessions do not require the event). -/
theorem sessionQuantityOf_retained_no_session_limit_with_event (e : RateLimit)
    (aL : Option RateLimit) (items : List Item) :
    sessionQuantityOf ((apply_retention (some e) aL none items).1) =
      sessionQuantityOf items := by
  induction items with
  | nil => rfl
  | cons i rest ih =>
    by_cases hreq : i.requires_event = true
    · have hri : retain_item (some e) aL none i =
          { applied_limit := some e, retain_in_envelope := false, item := i } := by
        rw [retain_item_with_event, if_pos hreq]
      have hts : i.ty ≠ .session := by
        intro hcon
        unfold Item.requires_event at hreq
        rw [hcon] at hreq
        exact Bool.noConfusion hreq
      simp [apply_retention_cons, hri, sessionQuantityOf_cons, ih, hts]
    · have hri : retain_item (some e) aL none i =
          { applied_limit := none, retain_in_envelope := true, item := i } := by
        rw [retain_item_with_event, if_neg hreq, if_neg (by simp)]
      simp [apply_retention_cons, hri, sessionQuantityOf_cons, ih]

/-- Retaining with only an event limit over items none of which require the
event keeps everything and records nothing. -/
theorem apply_retention_event_no_requires (e : RateLimit) (items : List Item)
    (h : ∀ i ∈ items, i.requires_event = false) :
    apply_retention (some e) none none items = (items, []) := by
  induction items with
  | nil => rfl
  | cons i rest ih =>
    have hreq : ¬ i.requires_event = true := by
      rw [h i (List.mem_cons_self i rest)]
      exact Bool.noConfusion
    have hri : retain_item (some e) none none i =
        { applied_limit := none, retain_in_envelope := true, item := i } := by
      rw [retain_item_with_event, if_neg hreq, if_neg (by simp)]
    rw [apply_retention_cons, hri, ih fun j hj => h j (List.mem_cons_of_mem i hj)]
    simp

theorem attachmentQuantityOf_filter_not_limited (items : List Item) :
    attachmentQuantityOf (items.filter fun i => !i.rate_limited) =
      attachmentQuantityOf items := by
  induction items with
  | nil => rfl
  | cons i rest ih =>
    rw [List.filter_cons]
    cases hr : i.rate_limited <;>
      simp_all [attachmentQuantityOf_cons]

theorem sessionQuantityOf_filter_not_limited (items : List Item) :
    sessionQuantityOf (items.filter fun i => !i.rate_limited) =
      sessionQuantityOf items := by
  induction items with
  | nil => rfl
  | cons i rest ih =>
    rw [List.filter_cons]
    cases hr : i.rate_limited <;>
      simp_all [sessionQuantityOf_cons]

theorem summaryOf_event_category (ec : Option DataCategory) (env : Envelope) :
    (summaryOf ec env).event_category =
      match ec with
      | some c => some c
      | none => inferListCategory env.items := by
  cases ec <;> simp [summaryOf, compute_event_category]

theorem summaryOf_attachment_quantity (ec : Option DataCategory) (env : Envelope) :
    (summaryOf ec env).attachment_quantity = attachmentQuantityOf env.items := by
  cases ec <;> simp [summaryOf, compute_attachment_quantity]

theorem summaryOf_session_quantity (ec : Option DataCategory) (env : Envelope) :
    (summaryOf ec env).session_quantity = sessionQuantityOf env.items := by
  cases ec <;> simp [summaryOf, compute_session_quantity]

theorem eventLimitOf_congr (check : DataCategory → Nat → List RateLimit)
    (s t : EnvelopeSummary) (h : s.event_category = t.event_category) :
    eventLimitOf check s = eventLimitOf check t := by
  unfold eventLimitOf
  rw [h]

theorem envelope_eta (e : Envelope) (x : List Item) (h : e.items = x) :
    ({ e with items := x } : Envelope) = e := by
  cases e
  simp_all

/-- The second enforcement pass retains every item of an already-enforced
envelope and records no pair. -/
theorem c5_second_pass_identity (check : DataCategory → Nat → List RateLimit)
    (ec : Option DataCategory) (env : Envelope) :
    apply_retention
      (EnvelopeLimiter.execute check
        (summaryOf ec (EnvelopeLimiter.enforce check ec env).envelope)).event_limit
      (EnvelopeLimiter.execute check
        (summaryOf ec (EnvelopeLimiter.enforce check ec env).envelope)).attachment_limit
      (EnvelopeLimiter.execute check
        (summaryOf ec (EnvelopeLimiter.enforce check ec env).envelope)).session_limit
      (EnvelopeLimiter.enforce check ec env).envelope.items =
      ((EnvelopeLimiter.enforce check ec env).envelope.items, []) := by
  have hE1items : (EnvelopeLimiter.enforce check ec env).envelope.items =
      (apply_retention
        (EnvelopeLimiter.execute check (summaryOf ec env)).event_limit
        (EnvelopeLimiter.execute check (summaryOf ec env)).attachment_limit
        (EnvelopeLimiter.execute check (summaryOf ec env)).session_limit
        env.items).1 := rfl
  have hs2aq :
      (summaryOf ec (EnvelopeLimiter.enforce check ec env).envelope).attachment_quantity =
        attachmentQuantityOf (EnvelopeLimiter.enforce check ec env).envelope.items :=
    summaryOf_attachment_quantity ec _
  have hs2sq :
      (summaryOf ec (EnvelopeLimiter.enforce check ec env).envelope).session_quantity =
        sessionQuantityOf (EnvelopeLimiter.enforce check ec env).envelope.items :=
    summaryOf_session_quantity ec _
  have hs1aq : (summaryOf ec env).attachment_quantity = attachmentQuantityOf env.items :=
    summaryOf_attachment_quantity ec env
  have hs1sq : (summaryOf ec env).session_quantity = sessionQuantityOf env.items :=
    summaryOf_session_quantity ec env
  rcases heL1 : (EnvelopeLimiter.execute check (summaryOf ec env)).event_limit with _ | e
  · -- no event limit on the first pass
    have hcat12 :
        (summaryOf ec (EnvelopeLimiter.enforce check ec env).envelope).event_category =
          (summaryOf ec env).event_category := by
      rw [summaryOf_event_category, summaryOf_event_category]
      cases ec
      · rw [hE1items, heL1, inferListCategory_retained_no_event]
      · rfl
    have heLof1 : eventLimitOf check (summaryOf ec env) = none := by
      rw [← execute_event_limit, heL1]
    have heL2 :
        (EnvelopeLimiter.execute check
          (summaryOf ec (EnvelopeLimiter.enforce check ec env).envelope)).event_limit =
          none := by
      rw [execute_event_limit, eventLimitOf_congr check _ _ hcat12, heLof1]
    have haL2 :
        (EnvelopeLimiter.execute check
          (summaryOf ec (EnvelopeLimiter.enforce check ec env).envelope)).attachment_limit =
          none := by
      rw [execute_attachment_limit]
      rcases haL1 : (EnvelopeLimiter.execute check (summaryOf ec env)).attachment_limit
        with _ | a
      · -- no attachment limit either: the quantity is unchanged, and the
        -- first-pass check returned no active limit
        have haq12 :
            attachmentQuantityOf (EnvelopeLimiter.enforce check ec env).envelope.items =
              attachmentQuantityOf env.items := by
          rw [hE1items, heL1, haL1, attachmentQuantityOf_retained_no_attachment_limit]
        rw [execute_attachment_limit, heLof1] at haL1
        by_cases hq : 0 < attachmentQuantityOf env.items
        · rw [if_pos ⟨rfl, hs1aq ▸ hq⟩] at haL1
          split
          · rw [hs2aq, haq12, ← hs1aq]
            exact haL1
          · rfl
        · split
          · rename_i hcon
            rw [hs2aq, haq12] at hcon
            exact absurd hcon.2 hq
          · rfl
      · -- attachment limit fired: nothing attachment-charged survives
        have haq2 :
            attachmentQuantityOf (EnvelopeLimiter.enforce check ec env).envelope.items = 0 := by
          rw [hE1items, heL1, haL1, attachmentQuantityOf_retained_attachment_limit]
        rw [if_neg]
        rintro ⟨-, hcon⟩
        rw [hs2aq, haq2] at hcon
        exact Nat.lt_irrefl 0 hcon
    have hsL2 :
        (EnvelopeLimiter.execute check
          (summaryOf ec (EnvelopeLimiter.enforce check ec env).envelope)).session_limit =
          none := by
      rw [execute_session_limit]
      rcases hsL1 : (EnvelopeLimiter.execute check (summaryOf ec env)).session_limit
        with _ | s0
      · have hsq12 :
            sessionQuantityOf (EnvelopeLimiter.enforce check ec env).envelope.items =
              sessionQuantityOf env.items := by
          rw [hE1items, heL1, hsL1, sessionQuantityOf_retained_no_session_limit_no_event]
        rw [execute_session_limit] at hsL1
        by_cases hq : 0 < sessionQuantityOf env.items
        · rw [if_pos (hs1sq ▸ hq)] at hsL1
          split
          · rw [hs2sq, hsq12, ← hs1sq]
            exact hsL1
          · rfl
        · split
          · rename_i hcon
            rw [hs2sq, hsq12] at hcon
            exact absurd hcon hq
          · rfl
      · have hsq2 :
            sessionQuantityOf (EnvelopeLimiter.enforce check ec env).envelope.items = 0 := by
          rw [hE1items, heL1, hsL1, sessionQuantityOf_retained_session_limit_no_event]
        rw [if_neg]
        intro hcon
        rw [hs2sq, hsq2] at hcon
        exact Nat.lt_irrefl 0 hcon
    rw [heL2, haL2, hsL2, apply_retention_none]
  · -- the event limit fired on the first pass: no retained item requires the
    -- event
    have hreq : ∀ i ∈ (EnvelopeLimiter.enforce check ec env).envelope.items,
        i.requires_event = false := by
      rw [hE1items, heL1]
      exact retained_with_event_not_requires e _ _ env.items
    have haq2 :
        attachmentQuantityOf (EnvelopeLimiter.enforce check ec env).envelope.items = 0 :=
      attachmentQuantityOf_of_not_requires _ hreq
    have haL2 :
        (EnvelopeLimiter.execute check
          (summaryOf ec (EnvelopeLimiter.enforce check ec env).envelope)).attachment_limit =
          none := by
      rw [execute_attachment_limit, if_neg]
      rintro ⟨-, hcon⟩
      rw [hs2aq, haq2] at hcon
      exact Nat.lt_irrefl 0 hcon
    have hsL2 :
        (EnvelopeLimiter.execute check
          (summaryOf ec (EnvelopeLimiter.enforce check ec env).envelope)).session_limit =
          none := by
      rw [execute_session_limit]
      rcases hsL1 : (EnvelopeLimiter.execute check (summaryOf ec env)).session_limit
        with _ | s0
      · have hsq12 :
            sessionQuantityOf (EnvelopeLimiter.enforce check ec env).envelope.items =
              sessionQuantityOf env.items := by
          rw [hE1items, heL1, hsL1, sessionQuantityOf_retained_no_session_limit_with_event]
        rw [execute_session_limit] at hsL1
        by_cases hq : 0 < sessionQuantityOf env.items
        · rw [if_pos (hs1sq ▸ hq)] at hsL1
          split
          · rw [hs2sq, hsq12, ← hs1sq]
            exact hsL1
          · rfl
        · split
          · rename_i hcon
            rw [hs2sq, hsq12] at hcon
            exact absurd hcon hq
          · rfl
      · have hsq2 :
            sessionQuantityOf (EnvelopeLimiter.enforce check ec env).envelope.items = 0 := by
          rw [hE1items, heL1, hsL1, sessionQuantityOf_retained_session_limit_with_event]
        rw [if_neg]
        intro hcon
        rw [hs2sq, hsq2] at hcon
        exact Nat.lt_irrefl 0 hcon
    cases hec : ec with
    | none =>
      have hcat2 :
          (summaryOf none (EnvelopeLimiter.enforce check none env).envelope).event_category =
            none := by
        rw [summaryOf_event_category]
        exact inferListCategory_of_not_requires _ (hec ▸ hreq)
      have heL2 :
          (EnvelopeLimiter.execute check
            (summaryOf none (EnvelopeLimiter.enforce check none env).envelope)).event_limit =
            none := by
        rw [execute_event_limit]
        unfold eventLimitOf
        rw [hcat2]
      rw [hec] at haL2 hsL2
      rw [heL2, haL2, hsL2, apply_retention_none]
    | some c =>
      have hcat2 :
          (summaryOf (some c)
            (EnvelopeLimiter.enforce check (some c) env).envelope).event_category =
            some c := by
        rw [summaryOf_event_category]
      have heL2 :
          (EnvelopeLimiter.execute check
            (summaryOf (some c)
              (EnvelopeLimiter.enforce check (some c) env).envelope)).event_limit =
            some e := by
        rw [execute_event_limit]
        unfold eventLimitOf
        rw [hcat2]
        have h1 : eventLimitOf check (summaryOf (some c) env) = some e := by
          rw [← execute_event_limit, ← hec]
          exact heL1
        unfold eventLimitOf at h1
        rw [summaryOf_event_category] at h1
        exact h1
      rw [hec] at haL2 hsL2 hreq
      rw [heL2, haL2, hsL2, apply_retention_event_no_requires e _ hreq]

/-- Claim C5: running `EnvelopeLimiter::enforce` a second time with the same
pure `check` (and the same assumed event category, if any) on the
already-enforced envelope removes no items and records no pair; and items
whose `rate_limited` flag is set are excluded from the attachment and session
quantities of the envelope summary, so they are never charged to a quota
again. -/
theorem c5_enforce_idempotent (check : DataCategory → Nat → List RateLimit)
    (ec : Option DataCategory) (env : Envelope) :
    (EnvelopeLimiter.enforce check ec
        (EnvelopeLimiter.enforce check ec env).envelope).envelope =
      (EnvelopeLimiter.enforce check ec env).envelope ∧
    (EnvelopeLimiter.enforce check ec
        (EnvelopeLimiter.enforce check ec env).envelope).limited_items = [] ∧
    (EnvelopeSummary.compute env).attachment_quantity =
      (EnvelopeSummary.compute
        { env with items := env.items.filter fun i => !i.rate_limited }).attachment_quantity ∧
    (EnvelopeSummary.compute env).session_quantity =
      (EnvelopeSummary.compute
        { env with items := env.items.filter fun i => !i.rate_limited }).session_quantity := by
  refine ⟨?_, ?_, ?_, ?_⟩
  · rw [enforce_envelope, c5_second_pass_identity]
  · rw [enforce_limited_items, c5_second_pass_identity]
  · rw [compute_attachment_quantity, compute_attachment_quantity]
    exact (attachmentQuantityOf_filter_not_limited env.items).symm
  · rw [compute_session_quantity, compute_session_quantity]
    exact (sessionQuantityOf_filter_not_limited env.items).symm

/-! ## String lemmas for the header round trip (claim C6) -/

theorem splitOnChar_ne_nil (sep : Char) (s : Str) : splitOnChar sep s ≠ [] := by
  cases s with
  | nil => simp [splitOnChar]
  | cons c rest =>
    simp only [splitOnChar]
    split
    · simp
    · split <;> simp

theorem splitOnChar_cons_ne (sep c : Char) (s : Str) (h : c ≠ sep) :
    splitOnChar sep (c :: s) =
      (c :: (splitOnChar sep s).headD []) :: (splitOnChar sep s).tail := by
  simp only [splitOnChar, if_neg h]
  rcases hs : splitOnChar sep s with _ | ⟨h1, t1⟩
  · exact absurd hs (splitOnChar_ne_nil sep s)
  · rfl

theorem splitOnChar_no_sep (sep : Char) (s : Str) (h : sep ∉ s) :
    splitOnChar sep s = [s] := by
  induction s with
  | nil => rfl
  | cons c rest ih =>
    have hc : c ≠ sep := fun hc => h (hc ▸ List.mem_cons_self c rest)
    rw [splitOnChar_cons_ne sep c rest hc,
      ih fun hm => h (List.mem_cons_of_mem c hm)]
    rfl

theorem splitOnChar_append_sep (sep : Char) (p rest : Str) (h : sep ∉ p) :
    splitOnChar sep (p ++ sep :: rest) = p :: splitOnChar sep rest := by
  induction p with
  | nil => simp [splitOnChar]
  | cons c t ih =>
    have hc : c ≠ sep := fun hc => h (hc ▸ List.mem_cons_self c t)
    rw [List.cons_append, splitOnChar_cons_ne sep c _ hc,
      ih fun hm => h (List.mem_cons_of_mem c hm)]
    rfl

theorem mem_splitOnChar_not_sep (sep : Char) (s piece : Str)
    (hp : piece ∈ splitOnChar sep s) : sep ∉ piece := by
  induction s generalizing piece with
  | nil =>
    simp [splitOnChar] at hp
    rw [hp]
    exact List.not_mem_nil sep
  | cons c rest ih =>
    by_cases hc : c = sep
    · rw [hc] at hp
      simp only [splitOnChar, if_pos rfl] at hp
      rcases List.mem_cons.mp hp with hp | hp
      · rw [hp]; exact List.not_mem_nil sep
      · exact ih piece hp
    · rw [splitOnChar_cons_ne sep c rest hc] at hp
      rcases List.mem_cons.mp hp with hp | hp
      · rcases hs : splitOnChar sep rest with _ | ⟨h1, t1⟩
        · exact absurd hs (splitOnChar_ne_nil sep rest)
        · have hh1 : h1 ∈ splitOnChar sep rest := by rw [hs]; exact List.mem_cons_self h1 t1
          rw [hp, hs]
          intro hm
          rcases List.mem_cons.mp hm with hm | hm
          · exact hc hm.symm
          · exact ih h1 hh1 hm
      · rcases hs : splitOnChar sep rest with _ | ⟨h1, t1⟩
        · exact absurd hs (splitOnChar_ne_nil sep rest)
        · rw [hs] at hp
          simp only [List.tail_cons] at hp
          exact ih piece (by rw [hs]; exact List.mem_cons_of_mem h1 hp)

theorem mem_splitOnChar_subset (sep : Char) (s piece : Str)
    (hp : piece ∈ splitOnChar sep s) : ∀ c ∈ piece, c ∈ s := by
  induction s generalizing piece with
  | nil =>
    simp [splitOnChar] at hp
    rw [hp]
    intro c hc
    exact absurd hc (List.not_mem_nil c)
  | cons c0 rest ih =>
    by_cases hc : c0 = sep
    · rw [hc] at hp ⊢
      simp only [splitOnChar, if_pos rfl] at hp
      rcases List.mem_cons.mp hp with hp | hp
      · rw [hp]
        intro c hcm
        exact absurd hcm (List.not_mem_nil c)
      · intro c hcm
        exact List.mem_cons_of_mem sep (ih piece hp c hcm)
    · rw [splitOnChar_cons_ne sep c0 rest hc] at hp
      rcases hs : splitOnChar sep rest with _ | ⟨h1, t1⟩
      · exact absurd hs (splitOnChar_ne_nil sep rest)
      · rw [hs] at hp
        rcases List.mem_cons.mp hp with hp | hp
        · intro c hcm
          rw [hp] at hcm
          rcases List.mem_cons.mp hcm with hcm | hcm
          · rw [hcm]; exact List.mem_cons_self c0 rest
          · exact List.mem_cons_of_mem c0
              (ih h1 (by rw [hs]; exact List.mem_cons_self h1 t1) c hcm)
        · simp only [List.tail_cons] at hp
          intro c hcm
          exact List.mem_cons_of_mem c0
            (ih piece (by rw [hs]; exact List.mem_cons_of_mem h1 hp) c hcm)

theorem trimChars_ws_cons (c : Char) (s : Str) (h : c.isWhitespace = true) :
    trimChars (c :: s) = trimChars s := by
  unfold trimChars
  rw [List.dropWhile_cons_of_pos h]

theorem dropWhile_eq_self_of_head (p : Char → Bool) (s : Str)
    (h : ∀ c, s.head? = some c → p c = false) : s.dropWhile p = s := by
  cases s with
  | nil => rfl
  | cons c rest => rw [List.dropWhile_cons_of_neg (by simp [h c rfl])]

theorem trimChars_eq_self (s : Str)
    (h1 : ∀ c, s.head? = some c → c.isWhitespace = false)
    (h2 : ∀ c, s.getLast? = some c → c.isWhitespace = false) :
    trimChars s = s := by
  unfold trimChars
  rw [dropWhile_eq_self_of_head _ s h1]
  rw [dropWhile_eq_self_of_head _ s.reverse (by
    intro c hc
    exact h2 c (by rwa [← List.head?_reverse]))]
  exact List.reverse_reverse s

theorem parseNatAux_append (a b : Str) (acc : Nat) :
    parseNatAux (a ++ b) acc =
      match parseNatAux a acc with
      | some v => parseNatAux b v
      | none => none := by
  induction a generalizing acc with
  | nil => rfl
  | cons c rest ih =>
    simp only [List.cons_append, parseNatAux]
    cases parseDigit c
    · rfl
    · exact ih _

theorem parseDigit_digitChar (d : Nat) (h : d < 10) :
    parseDigit (digitChar d) = some d := by
  interval_cases d <;> decide

theorem natToStr_lt (n : Nat) (h : n < 10) : natToStr n = [digitChar n] := by
  rw [natToStr, dif_pos h]

theorem natToStr_ge (n : Nat) (h : ¬ n < 10) :
    natToStr n = natToStr (n / 10) ++ [digitChar (n % 10)] := by
  rw [natToStr, dif_neg h]

theorem natToStr_ne_nil (n : Nat) : natToStr n ≠ [] := by
  by_cases h : n < 10
  · rw [natToStr_lt n h]
    simp
  · rw [natToStr_ge n h]
    simp

theorem parseNatAux_natToStr (n : Nat) :
    ∀ acc, parseNatAux (natToStr n) acc =
      some (acc * 10 ^ (natToStr n).length + n) := by
  induction n using natToStr.induct with
  | case1 n h =>
    intro acc
    rw [natToStr_lt n h]
    simp only [parseNatAux, parseDigit_digitChar n h, List.length_singleton]
    rw [pow_one]
  | case2 n h hlt ih =>
    intro acc
    rw [natToStr_ge n h]
    rw [parseNatAux_append, ih acc]
    have hm : n % 10 < 10 := Nat.mod_lt n (by omega)
    simp only [parseNatAux, parseDigit_digitChar (n % 10) hm]
    rw [List.length_append, List.length_singleton]
    congr 1
    have hexp : 10 ^ ((natToStr (n / 10)).length + 1) =
        10 ^ (natToStr (n / 10)).length * 10 := pow_succ 10 _
    rw [hexp]
    have hr : (acc * 10 ^ (natToStr (n / 10)).length + n / 10) * 10 + n % 10 =
        acc * (10 ^ (natToStr (n / 10)).length * 10) + (n / 10 * 10 + n % 10) := by
      ring
    rw [hr]
    congr 1
    omega

theorem parseNat_natToStr (n : Nat) : parseNat (natToStr n) = some n := by
  unfold parseNat
  rw [if_neg (natToStr_ne_nil n), parseNatAux_natToStr n 0]
  simp

theorem natToStr_digits (n : Nat) :
    ∀ c ∈ natToStr n, 48 ≤ c.toNat ∧ c.toNat ≤ 57 := by
  induction n using natToStr.induct with
  | case1 n h =>
    intro c hc
    rw [natToStr_lt n h] at hc
    simp at hc
    rw [hc]
    interval_cases n <;> decide
  | case2 n h hlt ih =>
    intro c hc
    rw [natToStr_ge n h] at hc
    rcases List.mem_append.mp hc with hc | hc
    · exact ih c hc
    · simp at hc
      have hm : n % 10 < 10 := Nat.mod_lt n (by omega)
      rw [hc]
      interval_cases hm2 : n % 10 <;> decide

theorem from_name_name (c : DataCategory) :
    DataCategory.from_name c.name = c := by
  cases c <;> decide

theorem name_ne_nil (c : DataCategory) : c.name ≠ [] := by
  cases c <;> decide

theorem name_no_colon (c : DataCategory) : ':' ∉ c.name := by
  cases c <;> decide

theorem name_no_semicolon (c : DataCategory) : ';' ∉ c.name := by
  cases c <;> decide

theorem name_no_comma (c : DataCategory) : ',' ∉ c.name := by
  cases c <;> decide

theorem name_no_ws (c : DataCategory) : ∀ ch ∈ c.name, ch.isWhitespace = false := by
  cases c <;> decide

/-- The characters that can occur in a formatted category list. -/
theorem joinCategories_chars (cats : List DataCategory) :
    ∀ ch ∈ joinCategories cats, ch = ';' ∨ ∃ c ∈ cats, ch ∈ c.name := by
  induction cats with
  | nil => intro ch hch; exact absurd hch (List.not_mem_nil ch)
  | cons c rest ih =>
    intro ch hch
    cases rest with
    | nil =>
      simp only [joinCategories] at hch
      exact Or.inr ⟨c, List.mem_cons_self c [], hch⟩
    | cons c2 rest2 =>
      simp only [joinCategories] at hch
      rcases List.mem_append.mp hch with hch | hch
      · exact Or.inr ⟨c, List.mem_cons_self c _, hch⟩
      · rcases List.mem_cons.mp hch with hch | hch
        · exact Or.inl hch
        · rcases ih ch hch with hsemi | ⟨c3, hc3, hch3⟩
          · exact Or.inl hsemi
          · exact Or.inr ⟨c3, List.mem_cons_of_mem c hc3, hch3⟩

theorem joinCategories_no_colon (cats : List DataCategory) :
    ':' ∉ joinCategories cats := by
  intro hm
  rcases joinCategories_chars cats ':' hm with h | ⟨c, -, hc⟩
  · exact absurd h (by decide)
  · exact name_no_colon c hc

theorem joinCategories_no_comma (cats : List DataCategory) :
    ',' ∉ joinCategories cats := by
  intro hm
  rcases joinCategories_chars cats ',' hm with h | ⟨c, -, hc⟩
  · exact absurd h (by decide)
  · exact name_no_comma c hc

/-- Splitting a formatted category list on `';'` and parsing the names
recovers the categories. -/
theorem joinCategories_singleton (c : DataCategory) :
    joinCategories [c] = c.name := rfl

theorem joinCategories_cons2 (c c2 : DataCategory) (rest : List DataCategory) :
    joinCategories (c :: c2 :: rest) = c.name ++ ';' :: joinCategories (c2 :: rest) := rfl

/-- Splitting a formatted category list on `';'` and parsing the names
recovers the categories. -/
theorem joinCategories_roundtrip (cats : List DataCategory) :
    ((splitOnChar ';' (joinCategories cats)).filterMap fun c =>
      if c = [] then none else some (DataCategory.from_name c)) = cats := by
  induction cats with
  | nil => rfl
  | cons c rest ih =>
    cases rest with
    | nil =>
      rw [joinCategories_singleton,
        splitOnChar_no_sep ';' c.name (name_no_semicolon c),
        List.filterMap_cons, if_neg (name_ne_nil c), from_name_name c]
      rfl
    | cons c2 rest2 =>
      rw [joinCategories_cons2,
        splitOnChar_append_sep ';' c.name _ (name_no_semicolon c),
        List.filterMap_cons, if_neg (name_ne_nil c), from_name_name c, ih]

theorem scope_name_roundtrip (scoping : Scoping) (sc : RateLimitScope)
    (h : sc = .organization scoping.organization_id ∨
         sc = .project scoping.project_id ∨
         sc = .key scoping.public_key) :
    RateLimitScope.for_quota scoping (QuotaScope.from_name sc.name) = sc := by
  rcases h with h | h | h <;> rw [h] <;> rfl

theorem scope_name_ne_nil (sc : RateLimitScope) : sc.name ≠ [] := by
  cases sc <;> simp only [RateLimitScope.name] <;> decide

theorem scope_name_no_colon (sc : RateLimitScope) : ':' ∉ sc.name := by
  cases sc <;> simp only [RateLimitScope.name] <;> decide

theorem scope_name_no_comma (sc : RateLimitScope) : ',' ∉ sc.name := by
  cases sc <;> simp only [RateLimitScope.name] <;> decide

theorem scope_name_no_ws (sc : RateLimitScope) :
    ∀ ch ∈ sc.name, ch.isWhitespace = false := by
  cases sc <;> simp only [RateLimitScope.name] <;> decide

theorem natToStr_no_colon (n : Nat) : ':' ∉ natToStr n := by
  intro h
  have := natToStr_digits n ':' h
  revert this
  decide

theorem natToStr_no_comma (n : Nat) : ',' ∉ natToStr n := by
  intro h
  have := natToStr_digits n ',' h
  revert this
  decide

theorem char_digit_not_ws (c : Char) (h : 48 ≤ c.toNat ∧ c.toNat ≤ 57) :
    c.isWhitespace = false := by
  unfold Char.isWhitespace
  have h32 : c ≠ ' ' := by intro hc; rw [hc] at h; revert h; decide
  have h9 : c ≠ '\t' := by intro hc; rw [hc] at h; revert h; decide
  have h13 : c ≠ '\r' := by intro hc; rw [hc] at h; revert h; decide
  have h10 : c ≠ '\n' := by intro hc; rw [hc] at h; revert h; decide
  simp [h32, h9, h13, h10]

theorem natToStr_not_ws (n : Nat) : ∀ c ∈ natToStr n, c.isWhitespace = false :=
  fun c hc => char_digit_not_ws c (natToStr_digits n c hc)

/-- The canonicity a parsed rate limit enjoys, plus the reason-code
whitespace condition the round trip needs. -/
def LimitOk (scoping : Scoping) (l : RateLimit) : Prop :=
  (l.scope = .organization scoping.organization_id ∨
   l.scope = .project scoping.project_id ∨
   l.scope = .key scoping.public_key) ∧
  (∀ r, l.reason_code = some r → ':' ∉ r ∧ ',' ∉ r ∧
    (∀ c, r.getLast? = some c → c.isWhitespace = false))

theorem mem_of_getLast?_eq (l : List Char) (c : Char) (h : l.getLast? = some c) :
    c ∈ l := by
  obtain ⟨hne, hc⟩ := List.mem_getLast?_eq_getLast (l := l) (x := c) (by simp [h])
  rw [hc]
  exact List.getLast_mem hne

/-- `formatRateLimit`, reassociated to the right for structural reasoning. -/
theorem formatRateLimit_assoc (l : RateLimit) :
    formatRateLimit l =
      natToStr l.retry_after ++
        ':' :: (joinCategories l.categories ++
          ':' :: (l.scope.name ++
            (match l.reason_code with
             | some r => ':' :: r
             | none => []))) := by
  unfold formatRateLimit
  simp [List.append_assoc]

theorem formatRateLimit_ne_nil (l : RateLimit) : formatRateLimit l ≠ [] := by
  rw [formatRateLimit_assoc]
  intro h
  rcases List.append_eq_nil.mp h with ⟨h1, -⟩
  exact natToStr_ne_nil l.retry_after h1

theorem formatRateLimit_no_comma (scoping : Scoping) (l : RateLimit)
    (h : LimitOk scoping l) : ',' ∉ formatRateLimit l := by
  rw [formatRateLimit_assoc]
  intro hm
  rcases List.mem_append.mp hm with hm | hm
  · exact natToStr_no_comma l.retry_after hm
  · rcases List.mem_cons.mp hm with hm | hm
    · exact absurd hm (by decide)
    · rcases List.mem_append.mp hm with hm | hm
      · exact joinCategories_no_comma l.categories hm
      · rcases List.mem_cons.mp hm with hm | hm
        · exact absurd hm (by decide)
        · rcases List.mem_append.mp hm with hm | hm
          · exact scope_name_no_comma l.scope hm
          · rcases hrc : l.reason_code with _ | r
            · rw [hrc] at hm
              exact absurd hm (List.not_mem_nil ',')
            · rw [hrc] at hm
              rcases List.mem_cons.mp hm with hm | hm
              · exact absurd hm (by decide)
              · exact (h.2 r hrc).2.1 hm

theorem splitOnChar_formatRateLimit (l : RateLimit)
    (hreason : ∀ r, l.reason_code = some r → ':' ∉ r) :
    splitOnChar ':' (formatRateLimit l) =
      match l.reason_code with
      | some r => [natToStr l.retry_after, joinCategories l.categories, l.scope.name, r]
      | none => [natToStr l.retry_after, joinCategories l.categories, l.scope.name] := by
  rw [formatRateLimit_assoc]
  rw [splitOnChar_append_sep ':' _ _ (natToStr_no_colon l.retry_after)]
  rw [splitOnChar_append_sep ':' _ _ (joinCategories_no_colon l.categories)]
  rcases hrc : l.reason_code with _ | r
  · rw [List.append_nil]
    rw [splitOnChar_no_sep ':' _ (scope_name_no_colon l.scope)]
  · rw [splitOnChar_append_sep ':' _ _ (scope_name_no_colon l.scope)]
    rw [splitOnChar_no_sep ':' r (hreason r hrc)]

theorem trimChars_formatRateLimit (scoping : Scoping) (l : RateLimit)
    (h : LimitOk scoping l) : trimChars (formatRateLimit l) = formatRateLimit l := by
  apply trimChars_eq_self
  · intro c hc
    rw [formatRateLimit_assoc] at hc
    rcases hnat : natToStr l.retry_after with _ | ⟨c0, rest⟩
    · exact absurd hnat (natToStr_ne_nil _)
    · rw [hnat, List.cons_append, List.head?_cons] at hc
      injection hc with hceq
      rw [← hceq]
      exact natToStr_not_ws l.retry_after c0 (by rw [hnat]; exact List.mem_cons_self c0 rest)
  · intro c hc
    rw [formatRateLimit_assoc] at hc
    rw [List.getLast?_append_of_ne_nil _ (by simp)] at hc
    rw [← List.singleton_append, List.getLast?_append_of_ne_nil _ (by simp)] at hc
    rw [List.getLast?_append_cons] at hc
    rw [← List.singleton_append,
      List.getLast?_append_of_ne_nil _
        (fun hn => scope_name_ne_nil l.scope (List.append_eq_nil.mp hn).1)] at hc
    rcases hrc : l.reason_code with _ | r
    · rw [hrc, List.append_nil] at hc
      exact scope_name_no_ws l.scope c (mem_of_getLast?_eq _ c hc)
    · rw [hrc] at hc
      rw [List.getLast?_append_cons] at hc
      by_cases hrn : r = []
      · rw [hrn] at hc
        simp only [List.getLast?_singleton, Option.some.injEq] at hc
        rw [← hc]
        decide
      · rw [← List.singleton_append, List.getLast?_append_of_ne_nil _ hrn] at hc
        exact (h.2 r hrc).2.2 c hc

theorem mem_add (limits : List RateLimit) (l a : RateLimit)
    (h : a ∈ RateLimits.add limits l) : a ∈ limits ∨ a = l := by
  induction limits with
  | nil =>
    simp only [RateLimits.add, List.mem_singleton] at h
    exact Or.inr h
  | cons l0 rest ih =>
    rw [RateLimits.add] at h
    split_ifs at h with h1 h2
    · rcases List.mem_cons.mp h with h | h
      · exact Or.inr h
      · exact Or.inl (List.mem_cons_of_mem l0 h)
    · rcases List.mem_cons.mp h with h | h
      · exact Or.inl (by rw [h]; exact List.mem_cons_self l0 rest)
      · exact Or.inl (List.mem_cons_of_mem l0 h)
    · rcases List.mem_cons.mp h with h | h
      · exact Or.inl (by rw [h]; exact List.mem_cons_self l0 rest)
      · rcases ih h with h | h
        · exact Or.inl (List.mem_cons_of_mem l0 h)
        · exact Or.inr h

theorem add_of_not_mem_keys (limits : List RateLimit) (l : RateLimit)
    (h : ∀ x ∈ limits, ¬(x.categories = l.categories ∧ x.scope = l.scope)) :
    RateLimits.add limits l = limits ++ [l] := by
  induction limits with
  | nil => rfl
  | cons l0 rest ih =>
    rw [RateLimits.add, if_neg (h l0 (List.mem_cons_self l0 rest)),
      ih (fun x hx => h x (List.mem_cons_of_mem l0 hx)), List.cons_append]

/-- Pairwise distinctness of the `(categories, scope)` keys, the invariant
`RateLimits` maintains. -/
def NoDupKeys (limits : List RateLimit) : Prop :=
  List.Pairwise (fun a b => ¬(a.categories = b.categories ∧ a.scope = b.scope)) limits

theorem noDupKeys_add (limits : List RateLimit) (l : RateLimit)
    (h : NoDupKeys limits) : NoDupKeys (RateLimits.add limits l) := by
  induction limits with
  | nil =>
    rw [RateLimits.add]
    exact List.pairwise_singleton _ l
  | cons l0 rest ih =>
    rw [NoDupKeys, List.pairwise_cons] at h
    rw [RateLimits.add]
    split_ifs with h1 h2
    · rw [NoDupKeys, List.pairwise_cons]
      refine ⟨fun b hb hk => ?_, h.2⟩
      exact h.1 b hb ⟨h1.1.trans hk.1, h1.2.trans hk.2⟩
    · rw [NoDupKeys, List.pairwise_cons]
      exact h
    · rw [NoDupKeys, List.pairwise_cons]
      refine ⟨fun b hb hk => ?_, ih h.2⟩
      rcases mem_add rest l b hb with hb | hb
      · exact h.1 b hb hk
      · rw [hb] at hk
        exact h1 hk

theorem trimChars_subset (s : Str) : ∀ c ∈ trimChars s, c ∈ s := by
  intro c hc
  unfold trimChars at hc
  rw [List.mem_reverse] at hc
  have h2 := (List.dropWhile_sublist Char.isWhitespace).mem hc
  rw [List.mem_reverse] at h2
  exact (List.dropWhile_sublist Char.isWhitespace).mem h2

/-- The canonicity every limit produced by `parse_rate_limits` enjoys: the
scope carries the scoping's own identifiers and a reason code never contains
the separators of the header. -/
def ParseCanon (scoping : Scoping) (l : RateLimit) : Prop :=
  (l.scope = .organization scoping.organization_id ∨
   l.scope = .project scoping.project_id ∨
   l.scope = .key scoping.public_key) ∧
  (∀ r, l.reason_code = some r → ':' ∉ r ∧ ',' ∉ r)

theorem parseLimitEntry_canon (scoping : Scoping) (acc : List RateLimit) (raw : Str)
    (hraw : ',' ∉ raw) (hacc : ∀ a ∈ acc, ParseCanon scoping a) :
    ∀ l ∈ parseLimitEntry scoping acc raw, ParseCanon scoping l := by
  intro l hl
  simp only [parseLimitEntry] at hl
  split_ifs at hl
  · exact hacc l hl
  · split at hl
    · exact hacc l hl
    · rcases mem_add _ _ _ hl with hl | hl
      · exact hacc l hl
      · rw [hl]
        constructor
        · cases QuotaScope.from_name (((splitOnChar ':' (trimChars raw)).get? 2).getD []) with
          | organization => exact Or.inl rfl
          | project => exact Or.inr (Or.inl rfl)
          | key => exact Or.inr (Or.inr rfl)
          | unknown => exact Or.inl rfl
        · intro r hr
          have hr2 : (splitOnChar ':' (trimChars raw)).get? 3 = some r := hr
          have hrmem : r ∈ splitOnChar ':' (trimChars raw) := List.get?_mem hr2
          refine ⟨mem_splitOnChar_not_sep ':' _ r hrmem, fun hm => ?_⟩
          exact hraw (trimChars_subset raw ','
            (mem_splitOnChar_subset ':' _ r hrmem ',' hm))

theorem parse_fold_canon (scoping : Scoping) (tokens : List Str) (acc : List RateLimit)
    (htok : ∀ t ∈ tokens, ',' ∉ t) (hacc : ∀ a ∈ acc, ParseCanon scoping a) :
    ∀ l ∈ tokens.foldl (parseLimitEntry scoping) acc, ParseCanon scoping l := by
  induction tokens generalizing acc with
  | nil => exact hacc
  | cons t rest ih =>
    rw [List.foldl_cons]
    exact ih _ (fun x hx => htok x (List.mem_cons_of_mem t hx))
      (parseLimitEntry_canon scoping acc t (htok t (List.mem_cons_self t rest)) hacc)

theorem parse_canon (scoping : Scoping) (s : Str) :
    ∀ l ∈ parse_rate_limits scoping s, ParseCanon scoping l := by
  rw [parse_rate_limits]
  exact parse_fold_canon scoping (splitOnChar ',' s) []
    (fun t ht => mem_splitOnChar_not_sep ',' s t ht) (fun a ha => absurd ha (List.not_mem_nil a))

theorem parseLimitEntry_noDupKeys (scoping : Scoping) (acc : List RateLimit) (raw : Str)
    (h : NoDupKeys acc) : NoDupKeys (parseLimitEntry scoping acc raw) := by
  simp only [parseLimitEntry]
  split_ifs
  · exact h
  · split
    · exact h
    · exact noDupKeys_add _ _ h

theorem parse_fold_noDupKeys (scoping : Scoping) (tokens : List Str) (acc : List RateLimit)
    (h : NoDupKeys acc) : NoDupKeys (tokens.foldl (parseLimitEntry scoping) acc) := by
  induction tokens generalizing acc with
  | nil => exact h
  | cons t rest ih =>
    rw [List.foldl_cons]
    exact ih _ (parseLimitEntry_noDupKeys scoping acc t h)

theorem parse_noDupKeys (scoping : Scoping) (s : Str) :
    NoDupKeys (parse_rate_limits scoping s) :=
  parse_fold_noDupKeys scoping (splitOnChar ',' s) [] List.Pairwise.nil

theorem RateLimit.eta (l : RateLimit) :
    RateLimit.mk l.categories l.scope l.reason_code l.retry_after = l := rfl

/-- Reparsing one formatted canonical entry adds back exactly the limit it
was formatted from. -/
theorem parseLimitEntry_format (scoping : Scoping) (acc : List RateLimit) (raw : Str)
    (l : RateLimit) (hl : LimitOk scoping l) (htrim : trimChars raw = formatRateLimit l) :
    parseLimitEntry scoping acc raw = RateLimits.add acc l := by
  have hsplit := splitOnChar_formatRateLimit l (fun r hr => (hl.2 r hr).1)
  simp only [parseLimitEntry, htrim]
  rw [if_neg (formatRateLimit_ne_nil l)]
  rcases hrc : l.reason_code with _ | r
  · have hs : splitOnChar ':' (formatRateLimit l) =
        [natToStr l.retry_after, joinCategories l.categories, l.scope.name] := by
      rw [hsplit, hrc]
    rw [hs]
    simp only [List.get?_cons_zero, List.get?_cons_succ, List.get?_nil, Option.getD_some,
      parseNat_natToStr]
    rw [joinCategories_roundtrip, scope_name_roundtrip scoping l.scope hl.1, ← hrc,
      RateLimit.eta]
  · have hs : splitOnChar ':' (formatRateLimit l) =
        [natToStr l.retry_after, joinCategories l.categories, l.scope.name, r] := by
      rw [hsplit, hrc]
    rw [hs]
    simp only [List.get?_cons_zero, List.get?_cons_succ, List.get?_nil, Option.getD_some,
      parseNat_natToStr]
    rw [joinCategories_roundtrip, scope_name_roundtrip scoping l.scope hl.1, ← hrc,
      RateLimit.eta]

/-- The `", "`-joined tail of a formatted header. -/
def joinTail : List RateLimit → Str
  | [] => []
  | l :: rest => ',' :: ' ' :: (formatRateLimit l ++ joinTail rest)

theorem format_fold_acc (ls : List RateLimit) (acc : Str) (hacc : acc ≠ []) :
    ls.foldl
      (fun header l =>
        (if header = [] then header else header ++ [',', ' ']) ++ formatRateLimit l)
      acc = acc ++ joinTail ls := by
  induction ls generalizing acc with
  | nil => rw [List.foldl_nil, joinTail, List.append_nil]
  | cons l rest ih =>
    rw [List.foldl_cons, if_neg hacc, ih _ (by simp), joinTail]
    simp [List.append_assoc]

theorem format_rate_limits_cons (l : RateLimit) (rest : List RateLimit) :
    format_rate_limits (l :: rest) = formatRateLimit l ++ joinTail rest := by
  rw [format_rate_limits, List.foldl_cons, if_pos rfl, List.nil_append]
  exact format_fold_acc rest (formatRateLimit l) (formatRateLimit_ne_nil l)

theorem splitOnChar_join (scoping : Scoping) (ls : List RateLimit) (pre : Str)
    (hpre : ',' ∉ pre) (hls : ∀ l ∈ ls, LimitOk scoping l) :
    splitOnChar ',' (pre ++ joinTail ls) =
      pre :: ls.map (fun l => ' ' :: formatRateLimit l) := by
  induction ls generalizing pre with
  | nil => rw [joinTail, List.append_nil, splitOnChar_no_sep ',' pre hpre, List.map_nil]
  | cons l rest ih =>
    rw [joinTail, List.map_cons]
    have hshape : pre ++ ',' :: ' ' :: (formatRateLimit l ++ joinTail rest)
        = pre ++ ',' :: ((' ' :: formatRateLimit l) ++ joinTail rest) := by simp
    rw [hshape, splitOnChar_append_sep ',' pre _ hpre]
    rw [ih (' ' :: formatRateLimit l)
      (fun hm => by
        rcases List.mem_cons.mp hm with hm | hm
        · exact absurd hm (by decide)
        · exact formatRateLimit_no_comma scoping l (hls l (List.mem_cons_self l rest)) hm)
      (fun x hx => hls x (List.mem_cons_of_mem l hx))]

theorem parse_fold_format (scoping : Scoping) (ls : List RateLimit) (acc : List RateLimit)
    (hok : ∀ l ∈ ls, LimitOk scoping l)
    (hdisj : ∀ a ∈ acc, ∀ l ∈ ls, ¬(a.categories = l.categories ∧ a.scope = l.scope))
    (hnd : NoDupKeys ls) :
    (ls.map (fun l => ' ' :: formatRateLimit l)).foldl (parseLimitEntry scoping) acc
      = acc ++ ls := by
  induction ls generalizing acc with
  | nil => rw [List.map_nil, List.foldl_nil, List.append_nil]
  | cons l rest ih =>
    rw [NoDupKeys, List.pairwise_cons] at hnd
    rw [List.map_cons, List.foldl_cons]
    have htrim : trimChars (' ' :: formatRateLimit l) = formatRateLimit l := by
      rw [trimChars_ws_cons ' ' _ (by decide),
        trimChars_formatRateLimit scoping l (hok l (List.mem_cons_self l rest))]
    rw [parseLimitEntry_format scoping acc _ l (hok l (List.mem_cons_self l rest)) htrim]
    rw [add_of_not_mem_keys acc l
      (fun x hx => hdisj x hx l (List.mem_cons_self l rest))]
    rw [ih (acc ++ [l]) (fun x hx => hok x (List.mem_cons_of_mem l hx))
      (fun a ha x hx => by
        rcases List.mem_append.mp ha with ha | ha
        · exact hdisj a ha x (List.mem_cons_of_mem l hx)
        · rw [List.mem_singleton.mp ha]
          exact hnd.1 x hx)
      hnd.2]
    simp

/-- Whether trimming cannot eat into the reason code: the reason (if any)
does not end in whitespace.  This is exactly the condition the entry-level
`trim` of `parse_rate_limits` violates on the corrected claim. -/
def reasonTrimSafe (l : RateLimit) : Bool :=
  match l.reason_code with
  | none => true
  | some r =>
    match r.getLast? with
    | none => true
    | some c => !c.isWhitespace

theorem limitOk_of_canon (scoping : Scoping) (l : RateLimit)
    (hc : ParseCanon scoping l) (hw : reasonTrimSafe l = true) : LimitOk scoping l := by
  refine ⟨hc.1, fun r hr => ⟨(hc.2 r hr).1, (hc.2 r hr).2, fun c hgl => ?_⟩⟩
  simp only [reasonTrimSafe, hr, hgl, Bool.not_eq_true'] at hw
  exact hw

theorem parse_format_parse (scoping : Scoping) (s : Str)
    (h : (parse_rate_limits scoping s).all reasonTrimSafe = true) :
    parse_rate_limits scoping (format_rate_limits (parse_rate_limits scoping s))
      = parse_rate_limits scoping s := by
  have hcanon := parse_canon scoping s
  have hnd := parse_noDupKeys scoping s
  rw [List.all_eq_true] at h
  rcases hls : parse_rate_limits scoping s with _ | ⟨l, rest⟩
  · rfl
  · rw [hls] at hcanon hnd h
    have hok : ∀ x ∈ l :: rest, LimitOk scoping x :=
      fun x hx => limitOk_of_canon scoping x (hcanon x hx) (h x hx)
    rw [format_rate_limits_cons]
    rw [parse_rate_limits]
    rw [splitOnChar_join scoping rest (formatRateLimit l)
      (formatRateLimit_no_comma scoping l (hok l (List.mem_cons_self l rest)))
      (fun x hx => hok x (List.mem_cons_of_mem l hx))]
    rw [List.foldl_cons]
    rw [parseLimitEntry_format scoping [] _ l (hok l (List.mem_cons_self l rest))
      (trimChars_formatRateLimit scoping l (hok l (List.mem_cons_self l rest)))]
    rw [NoDupKeys, List.pairwise_cons] at hnd
    rw [show RateLimits.add [] l = [l] from rfl]
    rw [parse_fold_format scoping rest [l]
      (fun x hx => hok x (List.mem_cons_of_mem l hx))
      (fun a ha x hx => by
        rw [List.mem_singleton.mp ha]
        exact hnd.1 x hx)
      hnd.2]
    rfl

/-- **C6** (amended).  For every scoping and input string, provided no parsed
reason code ends in whitespace, formatting the parsed `RateLimits` with
`format_rate_limits` and parsing the result again reproduces the parsed
collection exactly (even the entry order is preserved); and a category token
that is not one of the known names parses to `DataCategory.unknown` rather
than failing.  Without the whitespace proviso the roundtrip fails, because
`parse_rate_limits` trims whole entries, eating trailing whitespace of a
final reason code. -/
theorem c6_parse_format_roundtrip (scoping : Scoping) (s : Str)
    (h : (parse_rate_limits scoping s).all reasonTrimSafe = true) :
    parse_rate_limits scoping (format_rate_limits (parse_rate_limits scoping s))
      = parse_rate_limits scoping s
    ∧ ∀ t : Str,
        t ∉ ["default".toList, "error".toList, "transaction".toList, "security".toList,
             "attachment".toList, "session".toList] →
        DataCategory.from_name t = .unknown := by
  refine ⟨parse_format_parse scoping s h, fun t ht => ?_⟩
  simp only [List.mem_cons, List.not_mem_nil, or_false, not_or] at ht
  obtain ⟨h1, h2, h3, h4, h5, h6⟩ := ht
  unfold DataCategory.from_name
  rw [if_neg h1, if_neg h2, if_neg h3, if_neg h4, if_neg h5, if_neg h6]

/-- **C6** counterexample to the unconditional claim: the entry
`42::organization:x :y` parses to a limit whose reason code is `"x "`
(component three of the `':'`-split), but the formatted header ends in that
reason code, so reparsing trims the trailing space and yields reason `"x"`:
the roundtrip changes the collection (no reordering or category
normalization is involved - the two singletons differ). -/
theorem c6_counterexample_trailing_ws_reason :
    parse_rate_limits ⟨1, 2, none, 3⟩ "42::organization:x :y".toList
      = [{ categories := [], scope := .organization 1,
           reason_code := some "x ".toList, retry_after := 42 }]
    ∧ parse_rate_limits ⟨1, 2, none, 3⟩
        (format_rate_limits (parse_rate_limits ⟨1, 2, none, 3⟩
          "42::organization:x :y".toList))
      = [{ categories := [], scope := .organization 1,
           reason_code := some "x".toList, retry_after := 42 }] := by
  have h42 : natToStr 42 = ['4', '2'] := by
    rw [natToStr_ge 42 (by omega), show (42 : Nat) / 10 = 4 from rfl,
      natToStr_lt 4 (by omega)]
    rfl
  have h1 : parse_rate_limits ⟨1, 2, none, 3⟩ "42::organization:x :y".toList
      = [{ categories := [], scope := .organization 1,
           reason_code := some "x ".toList, retry_after := 42 }] := by decide
  refine ⟨h1, ?_⟩
  rw [h1]
  have hfmt : format_rate_limits
      [{ categories := [], scope := .organization 1,
         reason_code := some "x ".toList, retry_after := 42 }]
      = "42::organization:x ".toList := by
    rw [format_rate_limits_cons, joinTail, List.append_nil]
    simp only [formatRateLimit, h42]
    rfl
  rw [hfmt]
  decide

theorem c6_parse_format_roundtrip_witness :
    ((parse_rate_limits ⟨1, 2, none, 3⟩
        "42:session:project, 23:event;foo:key:quota_exceeded".toList).all reasonTrimSafe
       = true)
    ∧ (parse_rate_limits ⟨1, 2, none, 3⟩
        (format_rate_limits (parse_rate_limits ⟨1, 2, none, 3⟩
          "42:session:project, 23:event;foo:key:quota_exceeded".toList))
        = parse_rate_limits ⟨1, 2, none, 3⟩
            "42:session:project, 23:event;foo:key:quota_exceeded".toList
       ∧ ∀ t : Str,
          t ∉ ["default".toList, "error".toList, "transaction".toList, "security".toList,
               "attachment".toList, "session".toList] →
          DataCategory.from_name t = .unknown) :=
  ⟨by decide,
   c6_parse_format_roundtrip ⟨1, 2, none, 3⟩
     "42:session:project, 23:event;foo:key:quota_exceeded".toList (by decide)⟩

/-! ## C7: the `strip-fields` key pattern -/

/-- The non-empty entries of `sensitive_fields` (the entries the loop of
`to_pii_config` does not skip). -/
def keptFields (fields : List Str) : List Str :=
  fields.filter (fun f => f != [])

/-- `'|'`-joined alternative list, the shape `f1|f2|...` of the claim. -/
def joinBar : List Str → Str
  | [] => []
  | [f] => f
  | f :: g :: rest => f ++ '|' :: joinBar (g :: rest)

theorem joinBar_singleton (a : Str) : joinBar [a] = a := rfl

theorem joinBar_cons2 (a b : Str) (l : List Str) :
    joinBar (a :: b :: l) = a ++ '|' :: joinBar (b :: l) := rfl

theorem joinBar_cons_flat (a : Str) (l : List Str) :
    joinBar (a :: l) = a ++ l.flatMap (fun x => '|' :: x) := by
  induction l generalizing a with
  | nil => rw [joinBar_singleton, List.flatMap_nil, List.append_nil]
  | cons b t ih =>
    rw [joinBar_cons2, ih b, List.flatMap_cons]
    simp

theorem flatMap_map_bar (l : List Str) :
    (l.map regexEscape).flatMap (fun x => '|' :: x) =
      l.flatMap (fun f => '|' :: regexEscape f) := by
  induction l with
  | nil => rfl
  | cons a t ih => rw [List.map_cons, List.flatMap_cons, List.flatMap_cons, ih]

theorem joinBar_map_esc (k : Str) (kr : List Str) :
    joinBar ((k :: kr).map regexEscape) =
      regexEscape k ++ kr.flatMap (fun f => '|' :: regexEscape f) := by
  rw [List.map_cons, joinBar_cons_flat, flatMap_map_bar]

theorem keptFields_nil : keptFields [] = [] := rfl

theorem keptFields_cons_empty (rest : List Str) :
    keptFields ([] :: rest) = keptFields rest := by
  simp [keptFields]

theorem keptFields_cons_ne (f : Str) (rest : List Str) (hf : f ≠ []) :
    keptFields (f :: rest) = f :: keptFields rest := by
  simp [keptFields, hf]

theorem sensitiveFieldsLoop_pos (fields : List Str) (idx : Nat) (re : Str) (b : Bool)
    (hidx : 0 < idx) :
    sensitiveFieldsLoop fields idx re b =
      (re ++ (keptFields fields).flatMap (fun f => '|' :: regexEscape f),
       if keptFields fields = [] then b else false) := by
  induction fields generalizing idx re b with
  | nil =>
    rw [sensitiveFieldsLoop, keptFields_nil, List.flatMap_nil, List.append_nil, if_pos rfl]
  | cons f rest ih =>
    rw [sensitiveFieldsLoop]
    by_cases hf : f = []
    · rw [if_pos hf, ih _ _ _ (by omega), hf, keptFields_cons_empty]
    · rw [if_neg hf, ih _ _ _ (by omega), keptFields_cons_ne f rest hf, List.flatMap_cons,
        if_pos hidx, if_neg (List.cons_ne_nil f (keptFields rest))]
      simp

theorem sensitive_fields_re_eq (fields : List Str) :
    sensitive_fields_re fields =
      if keptFields fields = [] then none
      else
        some (".*(".toList ++
          (if fields.head? = some [] then ['|'] else []) ++
          joinBar ((keptFields fields).map regexEscape) ++ ").*".toList) := by
  cases fields with
  | nil => simp [sensitive_fields_re, sensitiveFieldsLoop, keptFields]
  | cons f rest =>
    by_cases hf : f = []
    · subst hf
      have hloop : sensitiveFieldsLoop ([] :: rest) 0 ".*(".toList true =
          (".*(".toList ++ (keptFields rest).flatMap (fun g => '|' :: regexEscape g),
           if keptFields rest = [] then true else false) := by
        rw [sensitiveFieldsLoop, if_pos rfl]
        exact sensitiveFieldsLoop_pos rest 1 _ _ (by omega)
      by_cases hk : keptFields rest = []
      · rw [sensitive_fields_re, hloop]
        simp [hk, keptFields_cons_empty]
      · rcases hke : keptFields rest with _ | ⟨k, ks⟩
        · exact absurd hke hk
        · simp only [sensitive_fields_re, hloop, hke, if_neg (List.cons_ne_nil k ks),
            Bool.not_false, if_pos trivial, keptFields_cons_empty, List.head?_cons,
            if_pos rfl]
          rw [List.flatMap_cons, joinBar_map_esc]
          simp
    · have hloop : sensitiveFieldsLoop (f :: rest) 0 ".*(".toList true =
          (".*(".toList ++ regexEscape f ++
             (keptFields rest).flatMap (fun g => '|' :: regexEscape g),
           false) := by
        rw [sensitiveFieldsLoop, if_neg hf, sensitiveFieldsLoop_pos rest 1 _ _ (by omega)]
        simp
      have hne : keptFields (f :: rest) ≠ [] := by
        rw [keptFields_cons_ne f rest hf]
        exact List.cons_ne_nil f (keptFields rest)
      simp only [sensitive_fields_re, hloop, Bool.not_false, if_pos trivial,
        if_neg hne, keptFields_cons_ne f rest hf, List.head?_cons,
        if_neg (fun h => hf (Option.some.inj h)), joinBar_map_esc]
      simp

/-- **C7** (amended).  With data scrubbing enabled, `to_pii_config` discards
empty `sensitive_fields` entries; when all entries are empty no
`strip-fields` rule is produced and only the default applications remain;
otherwise the synthetic `strip-fields` key pattern is
`.*(` `f1|f2|...` `).*` over the non-empty regex-escaped fields, compiled
case-insensitively, *except* that the `'|'` separator is keyed to the
original index of the field, so a leading empty entry followed by a
non-empty one contributes a spurious leading `|` inside the group. -/
theorem c7_strip_fields_pattern (c : DataScrubbingConfig) (hs : c.scrub_data = true) :
    (keptFields c.sensitive_fields = [] →
      stripFieldsPattern (to_pii_config c) = none ∧
      (to_pii_config c = none ∨
        ∃ cfg, to_pii_config c = some cfg ∧ cfg.rules = [] ∧
          ∃ sel, cfg.applications =
            [(sel, if c.scrub_defaults = true then ["@common:filter".toList]
                   else if c.scrub_ip_addresses = true then ["@ip:filter".toList]
                   else [])]))
    ∧ (keptFields c.sensitive_fields ≠ [] →
        stripFieldsPattern (to_pii_config c) =
          some { source := ".*(".toList ++
                   (if c.sensitive_fields.head? = some [] then ['|'] else []) ++
                   joinBar ((keptFields c.sensitive_fields).map regexEscape) ++
                   ").*".toList,
                 case_insensitive := true }) := by
  have hre := sensitive_fields_re_eq c.sensitive_fields
  constructor
  · intro hk
    rw [if_pos hk] at hre
    simp only [to_pii_config, hre, hs]
    simp only [true_and, if_true]
    split_ifs <;>
      first
        | exact ⟨rfl, Or.inl rfl⟩
        | exact ⟨rfl, Or.inr ⟨_, rfl, rfl, _, rfl⟩⟩
  · intro hk
    rw [if_neg hk] at hre
    simp only [to_pii_config, hre, hs]
    simp only [true_and, if_true]
    split_ifs <;> first | rfl | simp_all

/-- **C7** counterexample to the claimed exact pattern: with
`sensitive_fields = ["", "a"]` the empty first entry is skipped, but the
`'|'` separator is pushed for `"a"` because its *original* index is `1`, so
the produced key pattern is `.*(|a).*` (which matches every key), not the
claimed `.*(a).*` over the remaining non-empty fields. -/
theorem c7_counterexample_leading_empty_field :
    stripFieldsPattern (to_pii_config
      { scrub_data := true, scrub_defaults := true, scrub_ip_addresses := false,
        sensitive_fields := [[], ['a']], exclude_fields := [] })
      = some { source := ".*(|a).*".toList, case_insensitive := true }
    ∧ ".*(|a).*".toList ≠ ".*(a).*".toList := by
  decide

/-- A concrete scrubbing config exercising both a leading empty sensitive
field and a kept one. -/
def c7cfg : DataScrubbingConfig :=
  { scrub_data := true, scrub_defaults := true, scrub_ip_addresses := false,
    sensitive_fields := [[], ['a'], []], exclude_fields := [] }

theorem c7_strip_fields_pattern_witness :
    c7cfg.scrub_data = true ∧
    ((keptFields c7cfg.sensitive_fields = [] →
      stripFieldsPattern (to_pii_config c7cfg) = none ∧
      (to_pii_config c7cfg = none ∨
        ∃ cfg, to_pii_config c7cfg = some cfg ∧ cfg.rules = [] ∧
          ∃ sel, cfg.applications =
            [(sel, if c7cfg.scrub_defaults = true then ["@common:filter".toList]
                   else if c7cfg.scrub_ip_addresses = true then ["@ip:filter".toList]
                   else [])]))
    ∧ (keptFields c7cfg.sensitive_fields ≠ [] →
        stripFieldsPattern (to_pii_config c7cfg) =
          some { source := ".*(".toList ++
                   (if c7cfg.sensitive_fields.head? = some [] then ['|'] else []) ++
                   joinBar ((keptFields c7cfg.sensitive_fields).map regexEscape) ++
                   ").*".toList,
                 case_insensitive := true })) :=
  ⟨rfl, c7_strip_fields_pattern c7cfg rfl⟩

/-! ## C9: the fetch tick and its failure path -/

theorem lookupAssoc_insertAssoc {α : Type} (m : List (RelayId × α)) (id id2 : RelayId)
    (v : α) :
    lookupAssoc (insertAssoc m id v) id2 =
      if id2 = id then some v else lookupAssoc m id2 := by
  induction m with
  | nil =>
    by_cases h : id2 = id
    · simp [insertAssoc, lookupAssoc, List.find?, h]
    · have hbe : (id == id2) = false := beq_eq_false_iff_ne.mpr (fun hh => h hh.symm)
      simp [insertAssoc, lookupAssoc, List.find?, h, hbe]
  | cons p rest ih =>
    rw [insertAssoc]
    by_cases h1 : p.1 = id
    · rw [if_pos h1]
      by_cases h : id2 = id
      · simp [lookupAssoc, List.find?, h]
      · have hbe : (id == id2) = false := beq_eq_false_iff_ne.mpr (fun hh => h hh.symm)
        have hpb : (p.1 == id2) = false := by
          rw [h1]
          exact hbe
        simp [lookupAssoc, List.find?, h, hbe, hpb]
    · rw [if_neg h1]
      by_cases h : id2 = id
      · have hpb : (p.1 == id2) = false :=
          beq_eq_false_iff_ne.mpr (fun hh => h1 (hh.trans h))
        simp only [lookupAssoc, List.find?, hpb]
        rw [if_pos h]
        have hih := ih
        rw [if_pos h] at hih
        exact hih
      · by_cases hp : p.1 = id2
        · simp [lookupAssoc, List.find?, hp, h]
        · have hpb : (p.1 == id2) = false := beq_eq_false_iff_ne.mpr hp
          simp only [lookupAssoc, List.find?, hpb]
          rw [if_neg h]
          have hih := ih
          rw [if_neg h] at hih
          exact hih

theorem lookupAssoc_extendAssoc_pres {α : Type} (new : List (RelayId × α))
    (m : List (RelayId × α)) (id : RelayId) (h : lookupAssoc m id ≠ none) :
    lookupAssoc (extendAssoc m new) id ≠ none := by
  induction new generalizing m with
  | nil => exact h
  | cons p rest ih =>
    rw [extendAssoc, List.foldl_cons]
    refine ih _ ?_
    rw [lookupAssoc_insertAssoc]
    by_cases hq : id = p.1
    · rw [if_pos hq]
      exact Option.some_ne_none p.2
    · rw [if_neg hq]
      exact h

theorem lookupAssoc_extendAssoc_mem {α : Type} (new : List (RelayId × α))
    (m : List (RelayId × α)) :
    ∀ id ∈ new.map Prod.fst, lookupAssoc (extendAssoc m new) id ≠ none := by
  induction new generalizing m with
  | nil => intro id hid; exact absurd hid (List.not_mem_nil id)
  | cons p rest ih =>
    intro id hid
    rcases List.mem_cons.mp hid with hid | hid
    · rw [extendAssoc, List.foldl_cons]
      refine lookupAssoc_extendAssoc_pres rest _ id ?_
      rw [lookupAssoc_insertAssoc, if_pos hid]
      exact Option.some_ne_none p.2
    · rw [extendAssoc, List.foldl_cons]
      exact ih _ id hid

theorem extendAssoc_ne_nil {α : Type} (new : List (RelayId × α))
    (m : List (RelayId × α)) (h : new ≠ []) : extendAssoc m new ≠ [] := by
  rcases new with _ | ⟨p, rest⟩
  · exact absurd rfl h
  · intro hc
    refine lookupAssoc_extendAssoc_mem (p :: rest) m p.1
      (List.mem_map_of_mem Prod.fst (List.mem_cons_self p rest)) ?_
    rw [hc]
    rfl

theorem backoffDelay_mono (m a : Nat) : backoffDelay m a ≤ backoffDelay m (a + 1) := by
  unfold backoffDelay
  refine min_le_min (le_refl m) ?_
  exact Nat.mul_le_mul_left 100 (Nat.pow_le_pow_right (by omega) (Nat.le_succ a))

/-- **C9**.  The fetch tick drains the whole in-flight channel map into one
upstream query whose relay ids are exactly the pending ids; and when the
upstream query fails - at a state `t` that may have accumulated new channels
in the meantime - every drained channel is re-inserted into the channel map
(no waiter is dropped), no cache entry is modified, nothing is sent, and a
new fetch is rescheduled with the batch interval plus the escalating
backoff. -/
theorem c9_fetch_drain_and_failure_requeue (config : CacheConfig) (now : Nat)
    (s t : RelayInfoCache) (d : List (RelayId × RelayInfoChannel)) (hd : d ≠ []) :
    (s.fetch_keys_start.request_relay_ids = s.relay_info_channels.map Prod.fst ∧
     s.fetch_keys_start.drained = s.relay_info_channels ∧
     s.fetch_keys_start.state.relay_info_channels = [] ∧
     s.fetch_keys_start.state.relays = s.relays) ∧
    (RelayInfoCache.fetch_keys_complete config now t d none).2 = [] ∧
    (RelayInfoCache.fetch_keys_complete config now t d none).1.relays = t.relays ∧
    (RelayInfoCache.fetch_keys_complete config now t d none).1.relay_info_channels
      = extendAssoc t.relay_info_channels d ∧
    (∀ id ∈ d.map Prod.fst,
      lookupAssoc
        (RelayInfoCache.fetch_keys_complete config now t d none).1.relay_info_channels
        id ≠ none) ∧
    (RelayInfoCache.fetch_keys_complete config now t d none).1.scheduled_fetch_delay
      = some (config.query_batch_interval +
          backoffDelay config.http_max_retry_interval t.backoff_attempt) ∧
    (RelayInfoCache.fetch_keys_complete config now t d none).1.backoff_attempt
      = t.backoff_attempt + 1 ∧
    backoffDelay config.http_max_retry_interval t.backoff_attempt ≤
      backoffDelay config.http_max_retry_interval (t.backoff_attempt + 1) := by
  have hne : ({ t with
      relay_info_channels := extendAssoc t.relay_info_channels d } :
      RelayInfoCache).relay_info_channels ≠ [] :=
    extendAssoc_ne_nil d t.relay_info_channels hd
  have hcomp : RelayInfoCache.fetch_keys_complete config now t d none =
      (RelayInfoCache.schedule_fetch config
        { t with relay_info_channels := extendAssoc t.relay_info_channels d }, []) := by
    simp only [RelayInfoCache.fetch_keys_complete]
    rw [if_pos hne]
  refine ⟨⟨rfl, rfl, rfl, rfl⟩, ?_, ?_, ?_, ?_, ?_, ?_,
    backoffDelay_mono config.http_max_retry_interval t.backoff_attempt⟩
  · rw [hcomp]
  · rw [hcomp]
    rfl
  · rw [hcomp]
    rfl
  · rw [hcomp]
    exact lookupAssoc_extendAssoc_mem d t.relay_info_channels
  · rw [hcomp]
    rfl
  · rw [hcomp]
    rfl

/-- Concrete cache-actor data for the C9 witness. -/
def c9cfg : CacheConfig :=
  { relay_cache_expiry := 10, cache_miss_expiry := 5, query_batch_interval := 100,
    http_max_retry_interval := 3000, credentials := some 1 }

def c9s : RelayInfoCache :=
  { backoff_attempt := 0, backoff_started := false,
    relays := [(4, RelayInfoState.doesNotExist 0)],
    relay_info_channels := [(1, 2)], scheduled_fetch_delay := none }

def c9d : List (RelayId × RelayInfoChannel) := [(5, 7)]

theorem c9_fetch_drain_and_failure_requeue_witness :
    c9d ≠ [] ∧
    ((c9s.fetch_keys_start.request_relay_ids = c9s.relay_info_channels.map Prod.fst ∧
      c9s.fetch_keys_start.drained = c9s.relay_info_channels ∧
      c9s.fetch_keys_start.state.relay_info_channels = [] ∧
      c9s.fetch_keys_start.state.relays = c9s.relays) ∧
     (RelayInfoCache.fetch_keys_complete c9cfg 0 c9s c9d none).2 = [] ∧
     (RelayInfoCache.fetch_keys_complete c9cfg 0 c9s c9d none).1.relays = c9s.relays ∧
     (RelayInfoCache.fetch_keys_complete c9cfg 0 c9s c9d none).1.relay_info_channels
       = extendAssoc c9s.relay_info_channels c9d ∧
     (∀ id ∈ c9d.map Prod.fst,
       lookupAssoc
         (RelayInfoCache.fetch_keys_complete c9cfg 0 c9s c9d none).1.relay_info_channels
         id ≠ none) ∧
     (RelayInfoCache.fetch_keys_complete c9cfg 0 c9s c9d none).1.scheduled_fetch_delay
       = some (c9cfg.query_batch_interval +
           backoffDelay c9cfg.http_max_retry_interval c9s.backoff_attempt) ∧
     (RelayInfoCache.fetch_keys_complete c9cfg 0 c9s c9d none).1.backoff_attempt
       = c9s.backoff_attempt + 1 ∧
     backoffDelay c9cfg.http_max_retry_interval c9s.backoff_attempt ≤
       backoffDelay c9cfg.http_max_retry_interval (c9s.backoff_attempt + 1)) :=
  ⟨by decide, c9_fetch_drain_and_failure_requeue c9cfg 0 c9s c9s c9d (by decide)⟩

/-- **C10**.  Without credentials, `get_or_fetch_info` on a relay id that has
no valid cache entry answers synchronously with `Ok(None)`: the state is
returned unchanged (no cache insertion, no in-flight channel registration,
no scheduled fetch), and the reply is `sync none` - in particular not a
registration whose resolution could ever produce `KeyError::FetchFailed`. -/
theorem c10_no_credentials_sync_none (config : CacheConfig) (now : Nat)
    (s : RelayInfoCache) (relay_id : RelayId) (ch : RelayInfoChannel)
    (hcred : config.credentials = none)
    (hmiss : ∀ st, lookupAssoc s.relays relay_id = some st →
       st.is_valid_cache config now = false) :
    RelayInfoCache.get_or_fetch_info config now s relay_id ch = (s, .sync none) := by
  rcases hl : lookupAssoc s.relays relay_id with _ | st
  · simp only [RelayInfoCache.get_or_fetch_info, hl,
      RelayInfoCache.get_or_fetch_info_miss, if_pos hcred]
  · simp only [RelayInfoCache.get_or_fetch_info, hl, hmiss st hl, Bool.false_eq_true,
      if_false, RelayInfoCache.get_or_fetch_info_miss, if_pos hcred]

/-- Concrete cache-actor data for the C10 witness: no credentials, and a
stale negative cache entry for relay id 4. -/
def c10cfg : CacheConfig :=
  { relay_cache_expiry := 10, cache_miss_expiry := 0, query_batch_interval := 100,
    http_max_retry_interval := 3000, credentials := none }

def c10s : RelayInfoCache :=
  { backoff_attempt := 0, backoff_started := false,
    relays := [(4, RelayInfoState.doesNotExist 0)],
    relay_info_channels := [], scheduled_fetch_delay := none }

theorem c10_no_credentials_sync_none_witness :
    c10cfg.credentials = none ∧
    (∀ st, lookupAssoc c10s.relays 4 = some st →
       st.is_valid_cache c10cfg 3 = false) ∧
    RelayInfoCache.get_or_fetch_info c10cfg 3 c10s 4 9 = (c10s, .sync none) :=
  ⟨rfl, fun st h => by cases Option.some.inj h; decide,
   c10_no_credentials_sync_none c10cfg 3 c10s 4 9 rfl
     (fun st h => by cases Option.some.inj h; decide)⟩
